import Mathlib

/-!
Verification of the session-management and attestation-aggregation core of
`sn_routing` (files `src/section_list_cache.rs` and `src/parsec.rs`).

The Rust `HashMap`s are embedded as association lists (`List (κ × α)`) with
lookup `findA`, key-replacing insertion `insertA`, key removal `eraseA` and
in-place value modification `modifyA`.  `insertA` and `eraseA` remove every
entry of the key they touch, so an association list always behaves like the
finite map it denotes; reachable states additionally have duplicate-free keys
(`nodupKeys`), which mirrors the `HashMap` key-uniqueness.
-/

section AssocKit

variable {κ : Type} {α : Type} {β : Type} [DecidableEq κ]

/-- Lookup of a key in an association list (embeds `HashMap::get`). -/
def findA (k : κ) : List (κ × α) → Option α
  | [] => none
  | e :: t => if e.1 = k then some e.2 else findA k t

/-- Removal of every entry with the given key (embeds `HashMap::remove`). -/
def eraseA (k : κ) : List (κ × α) → List (κ × α)
  | [] => []
  | e :: t => if e.1 = k then eraseA k t else e :: eraseA k t

/-- Key-replacing insertion (embeds `HashMap::insert`). -/
def insertA (k : κ) (v : α) (m : List (κ × α)) : List (κ × α) :=
  (k, v) :: eraseA k m

/-- Modification of the value at a key, if present (embeds `HashMap::get_mut`). -/
def modifyA (k : κ) (f : α → α) (m : List (κ × α)) : List (κ × α) :=
  m.map (fun e => if e.1 = k then (e.1, f e.2) else e)

/-- Iterated key removal (embeds a loop of `HashMap::remove` calls). -/
def eraseKeys (ks : List κ) (m : List (κ × α)) : List (κ × α) :=
  ks.foldl (fun acc k => eraseA k acc) m

/-- Removal of the entries whose value is the empty list (the pruning filter). -/
def dropEmptyVals : List (κ × List β) → List (κ × List β)
  | [] => []
  | (_, []) :: t => dropEmptyVals t
  | (k, v :: vs) :: t => (k, v :: vs) :: dropEmptyVals t

/-- Keys of the entries whose value is the empty list. -/
def emptyValKeys : List (κ × List β) → List κ
  | [] => []
  | (k, []) :: t => k :: emptyValKeys t
  | (_, _ :: _) :: t => emptyValKeys t

/-- Key-uniqueness, the invariant every Rust `HashMap` enjoys by construction. -/
@[reducible] def nodupKeys (m : List (κ × α)) : Prop := (m.map Prod.fst).Nodup

@[simp] theorem findA_nil (k : κ) : findA k ([] : List (κ × α)) = none := rfl

@[simp] theorem findA_cons (k : κ) (e : κ × α) (t : List (κ × α)) :
    findA k (e :: t) = if e.1 = k then some e.2 else findA k t := rfl

@[simp] theorem eraseA_nil (k : κ) : eraseA k ([] : List (κ × α)) = [] := rfl

@[simp] theorem eraseA_cons (k : κ) (e : κ × α) (t : List (κ × α)) :
    eraseA k (e :: t) = if e.1 = k then eraseA k t else e :: eraseA k t := rfl

@[simp] theorem findA_insertA_self (k : κ) (v : α) (m : List (κ × α)) :
    findA k (insertA k v m) = some v := by
  simp [insertA]

theorem findA_eraseA_self (k : κ) (m : List (κ × α)) :
    findA k (eraseA k m) = none := by
  induction m with
  | nil => rfl
  | cons e t ih =>
    by_cases h : e.1 = k <;> simp [h, ih]

theorem findA_eraseA_ne {k k' : κ} (h : k' ≠ k) (m : List (κ × α)) :
    findA k' (eraseA k m) = findA k' m := by
  induction m with
  | nil => rfl
  | cons e t ih =>
    by_cases he : e.1 = k
    · simp [he, Ne.symm h, ih]
    · by_cases he' : e.1 = k' <;> simp [he, he', h, ih]

theorem findA_insertA_ne {k k' : κ} (h : k' ≠ k) (v : α) (m : List (κ × α)) :
    findA k' (insertA k v m) = findA k' m := by
  simp [insertA, Ne.symm h, findA_eraseA_ne h]

theorem findA_modifyA_self (k : κ) (f : α → α) (m : List (κ × α)) :
    findA k (modifyA k f m) = (findA k m).map f := by
  induction m with
  | nil => rfl
  | cons e t ih =>
    simp only [modifyA] at ih
    by_cases h : e.1 = k <;> simp [modifyA, h, ih]

theorem findA_modifyA_ne {k k' : κ} (h : k' ≠ k) (f : α → α) (m : List (κ × α)) :
    findA k' (modifyA k f m) = findA k' m := by
  induction m with
  | nil => rfl
  | cons e t ih =>
    simp only [modifyA] at ih
    by_cases he : e.1 = k
    · simp [modifyA, he, Ne.symm h, ih]
    · by_cases he' : e.1 = k' <;> simp [modifyA, he, he', h, ih]

theorem findA_mem {k : κ} {v : α} {m : List (κ × α)} (h : findA k m = some v) :
    (k, v) ∈ m := by
  induction m with
  | nil => simp at h
  | cons e t ih =>
    by_cases he : e.1 = k
    · simp [he] at h
      subst he; rw [← h]; left
    · simp [he] at h
      exact List.mem_cons_of_mem _ (ih h)

theorem findA_eq_none_of_not_mem {k : κ} {m : List (κ × α)}
    (h : k ∉ m.map Prod.fst) : findA k m = none := by
  induction m with
  | nil => rfl
  | cons e t ih =>
    rw [List.map_cons] at h
    have h1 : e.1 ≠ k := fun he => h (by rw [he]; exact List.mem_cons_self _ _)
    have h2 : k ∉ t.map Prod.fst := fun hm => h (List.mem_cons_of_mem _ hm)
    simp [h1, ih h2]

theorem eraseA_of_not_mem {k : κ} {m : List (κ × α)}
    (h : k ∉ m.map Prod.fst) : eraseA k m = m := by
  induction m with
  | nil => rfl
  | cons e t ih =>
    rw [List.map_cons] at h
    have h1 : e.1 ≠ k := fun he => h (by rw [he]; exact List.mem_cons_self _ _)
    have h2 : k ∉ t.map Prod.fst := fun hm => h (List.mem_cons_of_mem _ hm)
    simp [h1, ih h2]

theorem findA_eq_of_mem_nodup {k : κ} {v : α} {m : List (κ × α)}
    (hm : (k, v) ∈ m) (hnd : nodupKeys m) : findA k m = some v := by
  induction m with
  | nil => simp at hm
  | cons e t ih =>
    have hnd1 : (e.1 :: t.map Prod.fst).Nodup := by
      simpa only [nodupKeys, List.map_cons] using hnd
    have hnd2 := List.nodup_cons.mp hnd1
    rcases List.mem_cons.mp hm with h | h
    · rw [← h]; simp
    · have hk : e.1 ≠ k := by
        intro he
        apply hnd2.1
        rw [he]
        exact List.mem_map_of_mem Prod.fst h
      simp [hk]
      exact ih h hnd2.2

theorem keys_eraseA_sublist (k : κ) (m : List (κ × α)) :
    ((eraseA k m).map Prod.fst).Sublist (m.map Prod.fst) := by
  induction m with
  | nil => simp
  | cons e t ih =>
    by_cases h : e.1 = k
    · rw [eraseA_cons, if_pos h, List.map_cons]
      exact ih.cons _
    · rw [eraseA_cons, if_neg h, List.map_cons, List.map_cons]
      exact ih.cons₂ _

theorem not_mem_keys_eraseA (k : κ) (m : List (κ × α)) :
    k ∉ (eraseA k m).map Prod.fst := by
  induction m with
  | nil => simp
  | cons e t ih =>
    by_cases h : e.1 = k <;> simp [h, ih]
    exact fun hk => h hk.symm

theorem nodupKeys_eraseA {m : List (κ × α)} (h : nodupKeys m) (k : κ) :
    nodupKeys (eraseA k m) :=
  (keys_eraseA_sublist k m).nodup h

theorem nodupKeys_insertA {m : List (κ × α)} (h : nodupKeys m) (k : κ) (v : α) :
    nodupKeys (insertA k v m) := by
  simp [nodupKeys, insertA]
  exact ⟨by simpa using not_mem_keys_eraseA k m, nodupKeys_eraseA h k⟩

theorem keys_modifyA (k : κ) (f : α → α) (m : List (κ × α)) :
    (modifyA k f m).map Prod.fst = m.map Prod.fst := by
  induction m with
  | nil => rfl
  | cons e t ih =>
    by_cases h : e.1 = k <;> simp [modifyA, h] at ih ⊢ <;> exact ih

theorem nodupKeys_modifyA {m : List (κ × α)} (h : nodupKeys m) (k : κ) (f : α → α) :
    nodupKeys (modifyA k f m) := by
  simpa [nodupKeys, keys_modifyA] using h

theorem eraseA_sublist (k : κ) (m : List (κ × α)) : (eraseA k m).Sublist m := by
  induction m with
  | nil => exact List.Sublist.refl _
  | cons e t ih =>
    by_cases h : e.1 = k
    · rw [eraseA_cons, if_pos h]
      exact ih.cons _
    · rw [eraseA_cons, if_neg h]
      exact ih.cons₂ _

theorem mem_insertA {e : κ × α} {k : κ} {v : α} {m : List (κ × α)}
    (h : e ∈ insertA k v m) : e = (k, v) ∨ e ∈ m := by
  rcases List.mem_cons.mp h with h | h
  · exact Or.inl h
  · exact Or.inr ((eraseA_sublist k m).subset h)

theorem mem_modifyA {e : κ × α} {k : κ} {f : α → α} {m : List (κ × α)}
    (h : e ∈ modifyA k f m) : e ∈ m ∨ ∃ e0 ∈ m, e = (e0.1, f e0.2) := by
  rcases List.mem_map.mp h with ⟨e0, he0, heq⟩
  by_cases hk : e0.1 = k
  · right; exact ⟨e0, he0, by rw [← heq]; simp [hk]⟩
  · left; rw [← heq]; simpa [hk] using he0

theorem sublist_dropEmptyVals (m : List (κ × List β)) :
    (dropEmptyVals m).Sublist m := by
  induction m with
  | nil => exact List.Sublist.refl _
  | cons e t ih =>
    rcases e with ⟨k, v⟩
    cases v with
    | nil =>
      simp only [dropEmptyVals]
      exact ih.cons _
    | cons x xs =>
      simp only [dropEmptyVals]
      exact ih.cons₂ _

theorem mem_dropEmptyVals {e : κ × List β} {m : List (κ × List β)} :
    e ∈ dropEmptyVals m ↔ e ∈ m ∧ e.2 ≠ [] := by
  induction m with
  | nil => simp [dropEmptyVals]
  | cons e' t ih =>
    rcases e' with ⟨k, v⟩
    cases v with
    | nil =>
      simp only [dropEmptyVals, ih, List.mem_cons]
      constructor
      · rintro ⟨h1, h2⟩
        exact ⟨Or.inr h1, h2⟩
      · rintro ⟨h1 | h1, h2⟩
        · rw [h1] at h2
          simp at h2
        · exact ⟨h1, h2⟩
    | cons x xs =>
      simp only [dropEmptyVals, List.mem_cons, ih]
      constructor
      · rintro (h | ⟨h1, h2⟩)
        · refine ⟨Or.inl h, ?_⟩
          rw [h]
          simp
        · exact ⟨Or.inr h1, h2⟩
      · rintro ⟨h | h, h2⟩
        · exact Or.inl h
        · exact Or.inr ⟨h, h2⟩

theorem dropEmptyVals_of_forall_ne {m : List (κ × List β)}
    (h : ∀ e ∈ m, e.2 ≠ []) : dropEmptyVals m = m := by
  induction m with
  | nil => rfl
  | cons e t ih =>
    rcases e with ⟨k, v⟩
    cases v with
    | nil => exact absurd rfl (h (k, []) (by left))
    | cons x xs =>
      simp [dropEmptyVals]
      exact ih fun e he => h e (List.mem_cons_of_mem _ he)

theorem emptyValKeys_of_forall_ne {m : List (κ × List β)}
    (h : ∀ e ∈ m, e.2 ≠ []) : emptyValKeys m = [] := by
  induction m with
  | nil => rfl
  | cons e t ih =>
    rcases e with ⟨k, v⟩
    cases v with
    | nil => exact absurd rfl (h (k, []) (by left))
    | cons x xs =>
      simp [emptyValKeys]
      exact ih fun e he => h e (List.mem_cons_of_mem _ he)

theorem findA_eraseKeys (ks : List κ) (m : List (κ × α)) (k : κ) :
    findA k (eraseKeys ks m) = if k ∈ ks then none else findA k m := by
  induction ks generalizing m with
  | nil => simp [eraseKeys]
  | cons k0 t ih =>
    by_cases h : k = k0
    · subst h
      simp [eraseKeys, List.foldl_cons]
      rw [show List.foldl (fun acc k => eraseA k acc) (eraseA k m) t = eraseKeys t (eraseA k m) from rfl, ih]
      simp [findA_eraseA_self]
    · simp [eraseKeys, List.foldl_cons]
      rw [show List.foldl (fun acc k => eraseA k acc) (eraseA k0 m) t = eraseKeys t (eraseA k0 m) from rfl, ih]
      by_cases hk : k ∈ t <;> simp [hk, h, findA_eraseA_ne (fun hh => h hh) (m := m)]

theorem mem_of_mem_keys {k : κ} {m : List (κ × α)} (h : k ∈ m.map Prod.fst) :
    ∃ v, (k, v) ∈ m := by
  rcases List.mem_map.mp h with ⟨e, he, heq⟩
  exact ⟨e.2, by rw [← heq]; exact he⟩

end AssocKit

/-- Selection of the entry with the most signatures: the Rust code stably
sorts the candidates by descending count and takes the first, which is the
earliest entry of maximal count in iteration order. -/
def bestEntry {α : Type} : List (α × Nat) → Option (α × Nat)
  | [] => none
  | e :: t =>
    match bestEntry t with
    | none => some e
    | some b => if e.2 < b.2 then some b else some e

/-- Modelled from the spec: `routing_table::Prefix` (the `routing_table`
module is not part of `src/`) is a variable-length bit string over node
identifiers together with a version number; `unversioned()` keeps the bits. -/
structure Pfx where
  bits : List Bool
  version : Nat

/-- Unversioned projection of a versioned bit string (embeds
`Prefix::unversioned`). -/
def Pfx.unversioned (p : Pfx) : List Bool := p.bits

/-- Modelled from the spec: one bit string is an ancestor of (an initial
segment of) the other. -/
def bitsLe : List Bool → List Bool → Bool
  | [], _ => true
  | _ :: _, [] => false
  | a :: as, b :: bs => (a == b) && bitsLe as bs

/-- Modelled from the spec: `Prefix::is_compatible` — two prefixes are
compatible when one is an ancestor of the other, i.e. their address ranges
overlap or nest. -/
def compat (p q : List Bool) : Bool := bitsLe p q || bitsLe q p

/-- Embeds `SectionListCache`: `signatures` maps an unversioned prefix to the
signature sets of each signed section list, `signed_by` maps an author to the
one list it currently vouches for under each unversioned prefix, and
`lists_cache` is the derived quorum cache. -/
structure SectionListCache (PublicInfo SectionList Signature : Type) where
  signatures : List (List Bool × List (SectionList × List (PublicInfo × Signature)))
  signed_by : List (PublicInfo × List (List Bool × SectionList))
  lists_cache : List (List Bool × (SectionList × List (PublicInfo × Signature)))

namespace SectionListCache

variable {PublicInfo SectionList Signature XorName : Type}
variable [DecidableEq PublicInfo] [DecidableEq SectionList]
variable (QN QD : Nat)

/-- Embeds `SectionListCache::new` (`Default::default()`: three empty maps). -/
def new : SectionListCache PublicInfo SectionList Signature := ⟨[], [], []⟩

/-- One iteration of the `update_lists_cache` loop of
`SectionListCache::update_lists_cache`, for the signatures-index entry `e`:
take the candidate with the most signatures and, when `sig_count *
QUORUM_DENOMINATOR > our_section_size * QUORUM_NUMERATOR`, (re)insert
`(list, signatures)` into the accumulated `lists_cache` (the `unwrap!` of the
source cannot fail because the selected list is a key of the map; its
impossible branch leaves the cache unchanged here). -/
def updateStep (our_section_size : Nat)
    (lc : List (List Bool × (SectionList × List (PublicInfo × Signature))))
    (e : List Bool × List (SectionList × List (PublicInfo × Signature))) :
    List (List Bool × (SectionList × List (PublicInfo × Signature))) :=
  match bestEntry (e.2.map (fun le => (le.1, le.2.length))) with
  | none => lc
  | some (l, sigCount) =>
    if our_section_size * QN < sigCount * QD then
      match findA l e.2 with
      | some sigs => insertA e.1 (l, sigs) lc
      | none => lc
    else lc

/-- Embeds `SectionListCache::update_lists_cache` with the quorum constants
`QUORUM_NUMERATOR = QN` and `QUORUM_DENOMINATOR = QD` (modelled from the spec
as configurable parameters; their definition lies outside `src/`): run
`updateStep` for every entry of the signatures index. -/
def update_lists_cache (our_section_size : Nat)
    (s : SectionListCache PublicInfo SectionList Signature) :
    SectionListCache PublicInfo SectionList Signature :=
  { s with
      lists_cache := s.signatures.foldl (updateStep QN QD our_section_size) s.lists_cache }

/-- Embeds `SectionListCache::prune`: drop section lists with no remaining
signatures, then prefixes with no remaining section lists (evicting those
prefixes from `lists_cache` as well), then authors signing nothing. -/
def prune (s : SectionListCache PublicInfo SectionList Signature) :
    SectionListCache PublicInfo SectionList Signature :=
  let sig1 := s.signatures.map (fun e => (e.1, dropEmptyVals e.2))
  { signatures := dropEmptyVals sig1
    signed_by := dropEmptyVals s.signed_by
    lists_cache := eraseKeys (emptyValKeys sig1) s.lists_cache }

/-- Embeds `SectionListCache::remove_signatures_for_prefix_by` (renamed: the
word after `for_` is spelled `pfx`): delete the author's signature for every
prefix it signed that is compatible with `pfx`, from both indices, then
prune.  The quorum cache is deliberately not recomputed here. -/
def remove_signatures_for_pfx_by (pfx : Pfx) (author : PublicInfo)
    (s : SectionListCache PublicInfo SectionList Signature) :
    SectionListCache PublicInfo SectionList Signature :=
  let toRemove := ((findA author s.signed_by).getD []).filter
    (fun e => compat e.1 pfx.unversioned)
  let s1 := toRemove.foldl (fun st pl =>
    { st with
        signatures := modifyA pl.1 (modifyA pl.2 (eraseA author)) st.signatures
        signed_by := modifyA author (eraseA pl.1) st.signed_by }) s
  prune s1

/-- Embeds `SectionListCache::add_signature`: revoke the author's conflicting
signatures for every compatible prefix, record the new signature in both
indices, then recompute the quorum cache. -/
def add_signature (pfx : Pfx) (pub_info : PublicInfo) (list : SectionList)
    (sig : Signature) (our_section_size : Nat)
    (s : SectionListCache PublicInfo SectionList Signature) :
    SectionListCache PublicInfo SectionList Signature :=
  let s1 := remove_signatures_for_pfx_by pfx pub_info s
  let mA := (findA pub_info s1.signed_by).getD []
  let s2 := { s1 with
      signed_by := insertA pub_info (insertA pfx.unversioned list mA) s1.signed_by }
  let inner := (findA pfx.unversioned s2.signatures).getD []
  let sigm := (findA list inner).getD []
  let s3 := { s2 with
      signatures := insertA pfx.unversioned
        (insertA list (insertA pub_info sig sigm) inner) s2.signatures }
  update_lists_cache QN QD our_section_size s3

/-- Embeds `SectionListCache::remove_signatures`: locate the author whose
derived name matches (`PublicInfo::name`, supplied as the abstract function
`nameOf`), drop its whole `signed_by` entry, delete each of its signatures
from the signatures index, prune, and recompute the quorum cache. -/
def remove_signatures (nameOf : PublicInfo → XorName) [DecidableEq XorName]
    (name : XorName) (our_section_size : Nat)
    (s : SectionListCache PublicInfo SectionList Signature) :
    SectionListCache PublicInfo SectionList Signature :=
  match s.signed_by.find? (fun e => decide (nameOf e.1 = name)) with
  | none => s
  | some al =>
    let s1 := { s with signed_by := eraseA al.1 s.signed_by }
    let s2 := al.2.foldl (fun st pl =>
      { st with signatures := modifyA pl.1 (modifyA pl.2 (eraseA al.1)) st.signatures }) s1
    update_lists_cache QN QD our_section_size (prune s2)

/-- Embeds `SectionListCache::get_signature_for`: pure three-level lookup. -/
def get_signature_for (pfx : Pfx) (pub_info : PublicInfo) (list : SectionList)
    (s : SectionListCache PublicInfo SectionList Signature) : Option Signature :=
  ((findA pfx.unversioned s.signatures).bind (fun lists => findA list lists)).bind
    (fun sigs => findA pub_info sigs)

/-- Embeds `SectionListCache::get_signatures`: pure lookup into the derived
quorum cache. -/
def get_signatures (pfx : Pfx)
    (s : SectionListCache PublicInfo SectionList Signature) :
    Option (SectionList × List (PublicInfo × Signature)) :=
  findA pfx.unversioned s.lists_cache

end SectionListCache

/-!
Embedding of `src/parsec.rs`.  The agreement engine (`parsec` crate), the
message payload types and the serialisation-size function are external
collaborators of the repository; they are abstracted as type parameters and
an `Engine` record of operations, exactly the narrow interface the source
consumes.
-/

/-- Embeds the outbound message envelopes `DirectMessage::ParsecRequest` and
`DirectMessage::ParsecResponse` (epoch tag plus payload). -/
inductive DirectMessage (Request Response : Type) where
  | parsecRequest : Nat → Request → DirectMessage Request Response
  | parsecResponse : Nat → Response → DirectMessage Request Response

/-- Abstraction of the external agreement engine and the serialisation layer:
`handle_request` returns an optional response (errors are logged and become
`none` in the source) together with the mutated engine state; `handle_response`
returns the mutated state; the two size functions embed
`serialisation::serialised_size`. -/
structure Engine (Parsec Request Response PublicId : Type) where
  handle_request : Parsec → PublicId → Request → Option Response × Parsec
  handle_response : Parsec → PublicId → Response → Parsec
  sizeOfRequest : Request → Nat
  sizeOfResponse : Response → Nat

/-- Embeds `ParsecMap`: the epoch-ordered session registry (`BTreeMap<u64,
Parsec>`, embedded as an association list whose newest epoch is the maximum
key) plus the traffic `ParsecSizeCounter` (a bare `u64`). -/
structure ParsecMap (Parsec : Type) where
  map : List (Nat × Parsec)
  size_counter : Nat

namespace ParsecMap

variable {Parsec Request Response PublicId FullId GenesisPfxInfo : Type}

/-- Embeds `ParsecMap::last_version`: the maximum key of the ordered map, or 0
(after a loud log) when the registry is empty. -/
def last_version (m : List (Nat × Parsec)) : Nat :=
  m.foldr (fun e acc => max e.1 acc) 0

/-- Embeds `ParsecMap::count_size`: account the size only when the message is
addressed to the newest epoch and that epoch is present in the map. -/
def count_size (size msg_version : Nat) (pm : ParsecMap Parsec) : ParsecMap Parsec :=
  if last_version pm.map = msg_version ∧ (findA msg_version pm.map).isSome then
    { pm with size_counter := pm.size_counter + size }
  else pm

/-- Embeds `ParsecMap::init`: idempotent epoch installation — only a vacant
epoch gets a freshly created session, and only then is the size counter reset.
`create` abstracts the session-construction function `create` of the source
(whose body delegates to the external engine constructors) and `versionOf`
abstracts `GenesisPfxInfo::first_info::version`. -/
def init (create : FullId → GenesisPfxInfo → Parsec) (versionOf : GenesisPfxInfo → Nat)
    (full_id : FullId) (gen_pfx_info : GenesisPfxInfo) (pm : ParsecMap Parsec) :
    ParsecMap Parsec :=
  match findA (versionOf gen_pfx_info) pm.map with
  | some _ => pm
  | none =>
    { map := insertA (versionOf gen_pfx_info) (create full_id gen_pfx_info) pm.map
      size_counter := 0 }

/-- Embeds `ParsecMap::handle_request`: count the size, drop the message when
no session exists for the epoch, otherwise feed it to that session, wrap a
successful engine response in an epoch-tagged envelope, and report whether the
epoch is the newest one (the `poll` flag). -/
def handle_request (E : Engine Parsec Request Response PublicId)
    (msg_version : Nat) (request : Request) (pub_id : PublicId)
    (pm : ParsecMap Parsec) :
    Option (DirectMessage Request Response) × Bool × ParsecMap Parsec :=
  let pm1 := count_size (E.sizeOfRequest request) msg_version pm
  match findA msg_version pm1.map with
  | none => (none, false, pm1)
  | some parsec =>
    let rp := E.handle_request parsec pub_id request
    let pm2 := { pm1 with map := modifyA msg_version (fun _ => rp.2) pm1.map }
    (rp.1.map (DirectMessage.parsecResponse msg_version),
      decide (last_version pm2.map = msg_version), pm2)

/-- Embeds `ParsecMap::handle_response`: symmetric to `handle_request` but
produces no reply; engine errors are swallowed. -/
def handle_response (E : Engine Parsec Request Response PublicId)
    (msg_version : Nat) (response : Response) (pub_id : PublicId)
    (pm : ParsecMap Parsec) : Bool × ParsecMap Parsec :=
  let pm1 := count_size (E.sizeOfResponse response) msg_version pm
  match findA msg_version pm1.map with
  | none => (false, pm1)
  | some parsec =>
    let pm2 := { pm1 with
      map := modifyA msg_version (fun _ => E.handle_response parsec pub_id response) pm1.map }
    (decide (last_version pm2.map = msg_version), pm2)

end ParsecMap

theorem last_version_modifyA {Parsec : Type} (k : Nat) (f : Parsec → Parsec)
    (m : List (Nat × Parsec)) :
    ParsecMap.last_version (modifyA k f m) = ParsecMap.last_version m := by
  induction m with
  | nil => rfl
  | cons e t ih =>
    simp only [ParsecMap.last_version, modifyA, List.map_cons, List.foldr_cons] at ih ⊢
    by_cases h : e.1 = k <;> simp [h, ih]

theorem findA_last_version_isSome {Parsec : Type} :
    ∀ (m : List (Nat × Parsec)), m ≠ [] →
      (findA (ParsecMap.last_version m) m).isSome := by
  intro m
  induction m with
  | nil =>
    intro h
    simp at h
  | cons e t ih =>
    intro _
    have hL : ParsecMap.last_version (e :: t) = max e.1 (ParsecMap.last_version t) := rfl
    by_cases he : e.1 = ParsecMap.last_version (e :: t)
    · simp [he]
    · have hne : ParsecMap.last_version (e :: t) = ParsecMap.last_version t := by
        rcases max_choice e.1 (ParsecMap.last_version t) with hc | hc
        · rw [hL, hc] at he
          exact absurd rfl he
        · rw [hL, hc]
      rw [hne]
      have he2 : e.1 ≠ ParsecMap.last_version t := fun hh => he (by rw [hne]; exact hh)
      cases t with
      | nil =>
        exact absurd (by rw [hL]; simp [ParsecMap.last_version]) he
      | cons e2 t2 =>
        simp [he2]
        exact ih (by simp)

theorem count_size_map {Parsec : Type} (sz v : Nat) (pm : ParsecMap Parsec) :
    (ParsecMap.count_size sz v pm).map = pm.map := by
  unfold ParsecMap.count_size
  split <;> rfl

theorem count_size_counter {Parsec : Type} (sz v : Nat) (pm : ParsecMap Parsec) :
    (ParsecMap.count_size sz v pm).size_counter =
      if ParsecMap.last_version pm.map = v ∧ (findA v pm.map).isSome
      then pm.size_counter + sz else pm.size_counter := by
  unfold ParsecMap.count_size
  by_cases h : ParsecMap.last_version pm.map = v ∧ (findA v pm.map).isSome <;> simp [h]

theorem handle_request_counter {Parsec Request Response PublicId : Type}
    (E : Engine Parsec Request Response PublicId) (v : Nat) (req : Request)
    (pub_id : PublicId) (pm : ParsecMap Parsec) :
    (ParsecMap.handle_request E v req pub_id pm).2.2.size_counter =
      (ParsecMap.count_size (E.sizeOfRequest req) v pm).size_counter := by
  unfold ParsecMap.handle_request
  cases hf : findA v (ParsecMap.count_size (E.sizeOfRequest req) v pm).map <;> simp [hf]

theorem handle_response_counter {Parsec Request Response PublicId : Type}
    (E : Engine Parsec Request Response PublicId) (v : Nat) (resp : Response)
    (pub_id : PublicId) (pm : ParsecMap Parsec) :
    (ParsecMap.handle_response E v resp pub_id pm).2.size_counter =
      (ParsecMap.count_size (E.sizeOfResponse resp) v pm).size_counter := by
  unfold ParsecMap.handle_response
  cases hf : findA v (ParsecMap.count_size (E.sizeOfResponse resp) v pm).map <;> simp [hf]

/-- C5: for every non-empty registry, every epoch, every request/response and
every sender, the `shouldContinuePolling` boolean returned by
`ParsecMap::handle_request` (and likewise by `ParsecMap::handle_response`) is
true if and only if the addressed epoch equals the registry's newest (maximum)
epoch. -/
theorem c5_polling_iff_newest {Parsec Request Response PublicId : Type}
    (E : Engine Parsec Request Response PublicId) (pm : ParsecMap Parsec)
    (h : pm.map ≠ []) (v : Nat) (req : Request) (resp : Response)
    (pub_id : PublicId) :
    ((ParsecMap.handle_request E v req pub_id pm).2.1 = true ↔
      v = ParsecMap.last_version pm.map) ∧
    ((ParsecMap.handle_response E v resp pub_id pm).1 = true ↔
      v = ParsecMap.last_version pm.map) := by
  constructor
  · simp only [ParsecMap.handle_request, count_size_map]
    cases hf : findA v pm.map with
    | none =>
      simp only [hf]
      constructor
      · intro hfalse
        simp at hfalse
      · intro hv
        have := findA_last_version_isSome pm.map h
        rw [← hv, hf] at this
        simp at this
    | some p =>
      simp only [hf, count_size_map, last_version_modifyA]
      simp [eq_comm]
  · simp only [ParsecMap.handle_response, count_size_map]
    cases hf : findA v pm.map with
    | none =>
      simp only [hf]
      constructor
      · intro hfalse
        simp at hfalse
      · intro hv
        have := findA_last_version_isSome pm.map h
        rw [← hv, hf] at this
        simp at this
    | some p =>
      simp only [hf, count_size_map, last_version_modifyA]
      simp [eq_comm]

/-- Witness for C5 at a concrete one-epoch registry. -/
theorem c5_polling_iff_newest_witness :
    ((ParsecMap.mk [((0 : Nat), (0 : Nat))] 0).map ≠ []) ∧
    ((ParsecMap.handle_request
        (⟨fun p _ _ => (none, p), fun p _ _ => p, fun _ => 1, fun _ => 1⟩ :
          Engine Nat Nat Nat Nat) 0 0 0 (ParsecMap.mk [(0, 0)] 0)).2.1 = true ↔
      (0 : Nat) = ParsecMap.last_version (ParsecMap.mk [((0 : Nat), (0 : Nat))] 0).map) :=
  ⟨by decide, (c5_polling_iff_newest _ _ (by decide) 0 0 0 0).1⟩

/-- C6: a message addressed to an epoch strictly below the newest leaves the
size counter unchanged; the counter changes only for the newest epoch, and
then by exactly the serialised size of the message. -/
theorem c6_size_accounting_locality {Parsec Request Response PublicId : Type}
    (E : Engine Parsec Request Response PublicId) (pm : ParsecMap Parsec)
    (v : Nat) (req : Request) (resp : Response) (pub_id : PublicId) :
    (v < ParsecMap.last_version pm.map →
      (ParsecMap.handle_request E v req pub_id pm).2.2.size_counter = pm.size_counter ∧
      (ParsecMap.handle_response E v resp pub_id pm).2.size_counter = pm.size_counter) ∧
    ((ParsecMap.handle_request E v req pub_id pm).2.2.size_counter ≠ pm.size_counter →
      v = ParsecMap.last_version pm.map ∧
      (ParsecMap.handle_request E v req pub_id pm).2.2.size_counter =
        pm.size_counter + E.sizeOfRequest req) ∧
    ((ParsecMap.handle_response E v resp pub_id pm).2.size_counter ≠ pm.size_counter →
      v = ParsecMap.last_version pm.map ∧
      (ParsecMap.handle_response E v resp pub_id pm).2.size_counter =
        pm.size_counter + E.sizeOfResponse resp) := by
  rw [handle_request_counter, handle_response_counter, count_size_counter, count_size_counter]
  by_cases hc : ParsecMap.last_version pm.map = v ∧ (findA v pm.map).isSome
  · rw [if_pos hc, if_pos hc]
    refine ⟨?_, ?_, ?_⟩
    · intro hv
      rw [hc.1] at hv
      exact absurd hv (lt_irrefl v)
    · intro _
      exact ⟨hc.1.symm, rfl⟩
    · intro _
      exact ⟨hc.1.symm, rfl⟩
  · rw [if_neg hc, if_neg hc]
    exact ⟨fun _ => ⟨rfl, rfl⟩, fun hne => absurd rfl hne, fun hne => absurd rfl hne⟩

/-- Witness for C6: at the newest epoch of a concrete registry the counter
grows by exactly the message size. -/
theorem c6_size_accounting_locality_witness :
    ((ParsecMap.handle_request
        (⟨fun p _ _ => (none, p), fun p _ _ => p, fun _ => 1, fun _ => 1⟩ :
          Engine Nat Nat Nat Nat) 0 0 0 (ParsecMap.mk [(0, 0)] 5)).2.2.size_counter ≠ 5) ∧
    ((0 : Nat) = ParsecMap.last_version (ParsecMap.mk [((0 : Nat), (0 : Nat))] 5).map ∧
      (ParsecMap.handle_request
        (⟨fun p _ _ => (none, p), fun p _ _ => p, fun _ => 1, fun _ => 1⟩ :
          Engine Nat Nat Nat Nat) 0 0 0 (ParsecMap.mk [(0, 0)] 5)).2.2.size_counter = 5 + 1) :=
  ⟨by decide,
    (c6_size_accounting_locality _ (ParsecMap.mk [(0, 0)] 5) 0 0 0 0).2.1 (by decide)⟩

/-- C7: `ParsecMap::init` is idempotent — a second call with an epoch that is
already present is a no-op (the stored session is not re-created and the size
counter is untouched), and only an absent epoch inserts a fresh session and
resets the size counter to zero. -/
theorem c7_init_idempotent {Parsec FullId GenesisPfxInfo : Type}
    (create : FullId → GenesisPfxInfo → Parsec) (versionOf : GenesisPfxInfo → Nat)
    (full_id full_id2 : FullId) (gen_pfx_info : GenesisPfxInfo)
    (pm : ParsecMap Parsec) :
    (ParsecMap.init create versionOf full_id2 gen_pfx_info
        (ParsecMap.init create versionOf full_id gen_pfx_info pm) =
      ParsecMap.init create versionOf full_id gen_pfx_info pm) ∧
    (∀ p, findA (versionOf gen_pfx_info) pm.map = some p →
      ParsecMap.init create versionOf full_id gen_pfx_info pm = pm) ∧
    (findA (versionOf gen_pfx_info) pm.map = none →
      ParsecMap.init create versionOf full_id gen_pfx_info pm =
        ParsecMap.mk (insertA (versionOf gen_pfx_info) (create full_id gen_pfx_info) pm.map) 0) := by
  refine ⟨?_, ?_, ?_⟩
  · cases hf : findA (versionOf gen_pfx_info) pm.map with
    | some p =>
      simp only [ParsecMap.init, hf]
    | none =>
      simp only [ParsecMap.init, hf, findA_insertA_self]
  · intro p hp
    simp only [ParsecMap.init, hp]
  · intro hp
    simp only [ParsecMap.init, hp]

/-- Witness for C7 at a concrete registry that already contains the epoch. -/
theorem c7_init_idempotent_witness :
    (findA ((fun (x : Nat) => x) 3) (ParsecMap.mk [((3 : Nat), (7 : Nat))] 9).map = some 7) ∧
    ParsecMap.init (fun (_ : Nat) (_ : Nat) => (0 : Nat)) (fun x => x) 0 3
      (ParsecMap.mk [(3, 7)] 9) = ParsecMap.mk [(3, 7)] 9 :=
  ⟨by decide,
    (c7_init_idempotent (fun _ _ => 0) (fun x => x) 0 0 3 (ParsecMap.mk [(3, 7)] 9)).2.1
      7 (by decide)⟩

/-- C8: a message addressed to an epoch with no session is a silent drop —
`handle_request` returns `(none, false)` and `handle_response` returns
`false`, the registry and the size counter are left untouched. -/
theorem c8_unknown_epoch_drop {Parsec Request Response PublicId : Type}
    (E : Engine Parsec Request Response PublicId) (pm : ParsecMap Parsec)
    (v : Nat) (req : Request) (resp : Response) (pub_id : PublicId)
    (h : findA v pm.map = none) :
    ParsecMap.handle_request E v req pub_id pm = (none, false, pm) ∧
    ParsecMap.handle_response E v resp pub_id pm = (false, pm) := by
  have hcs : ∀ sz : Nat, ParsecMap.count_size sz v pm = pm := by
    intro sz
    unfold ParsecMap.count_size
    rw [if_neg]
    intro hcond
    rw [h] at hcond
    simp at hcond
  constructor
  · simp only [ParsecMap.handle_request, hcs, h]
  · simp only [ParsecMap.handle_response, hcs, h]

/-- Witness for C8 at a concrete registry without the addressed epoch. -/
theorem c8_unknown_epoch_drop_witness :
    (findA 0 (ParsecMap.mk [((1 : Nat), (0 : Nat))] 4).map = none) ∧
    (ParsecMap.handle_request
        (⟨fun p _ _ => (none, p), fun p _ _ => p, fun _ => 1, fun _ => 1⟩ :
          Engine Nat Nat Nat Nat) 0 0 0 (ParsecMap.mk [(1, 0)] 4) =
      (none, false, ParsecMap.mk [(1, 0)] 4)) :=
  ⟨by decide,
    (c8_unknown_epoch_drop _ (ParsecMap.mk [(1, 0)] 4) 0 0 0 0 (by decide)).1⟩

namespace SectionListCache

variable {PublicInfo SectionList Signature XorName : Type}
variable [DecidableEq PublicInfo] [DecidableEq SectionList]
variable (QN QD : Nat)

/-- One public mutating call of the cache, as enumerated by the spec for
reachable states. -/
inductive CacheOp (PublicInfo SectionList Signature XorName : Type) where
  | addSig (pfx : Pfx) (author : PublicInfo) (list : SectionList)
      (sig : Signature) (our_section_size : Nat) :
      CacheOp PublicInfo SectionList Signature XorName
  | removeSigs (name : XorName) (our_section_size : Nat) :
      CacheOp PublicInfo SectionList Signature XorName

/-- Interpretation of one public mutating call. -/
def applyOp (nameOf : PublicInfo → XorName) [DecidableEq XorName]
    (op : CacheOp PublicInfo SectionList Signature XorName)
    (s : SectionListCache PublicInfo SectionList Signature) :
    SectionListCache PublicInfo SectionList Signature :=
  match op with
  | .addSig pfx a l g n => add_signature QN QD pfx a l g n s
  | .removeSigs nm n => remove_signatures QN QD nameOf nm n s

/-- Interpretation of a finite call sequence, first call first. -/
def applyOps (nameOf : PublicInfo → XorName) [DecidableEq XorName]
    (ops : List (CacheOp PublicInfo SectionList Signature XorName))
    (s : SectionListCache PublicInfo SectionList Signature) :
    SectionListCache PublicInfo SectionList Signature :=
  ops.foldl (fun st op => applyOp QN QD nameOf op st) s

/-- Structural absence of empty entries, the pruning invariant of the spec:
no prefix with an empty list-map, no (prefix, list) entry with an empty
signature set, no author with an empty per-prefix map. -/
def noEmpties (s : SectionListCache PublicInfo SectionList Signature) : Prop :=
  (∀ e ∈ s.signatures, e.2 ≠ [] ∧ ∀ e2 ∈ e.2, e2.2 ≠ []) ∧
  (∀ e ∈ s.signed_by, e.2 ≠ [])

theorem noEmpties_prune (s : SectionListCache PublicInfo SectionList Signature) :
    noEmpties (prune s) := by
  simp only [prune, noEmpties]
  refine ⟨?_, ?_⟩
  · intro e he
    have h2 := mem_dropEmptyVals.mp he
    refine ⟨h2.2, ?_⟩
    rcases List.mem_map.mp h2.1 with ⟨e0, _, heq⟩
    intro e2 he2
    rw [← heq] at he2
    exact (mem_dropEmptyVals.mp he2).2
  · intro e he
    exact (mem_dropEmptyVals.mp he).2

theorem noEmpties_update_lists_cache (n : Nat)
    {s : SectionListCache PublicInfo SectionList Signature} (h : noEmpties s) :
    noEmpties (update_lists_cache QN QD n s) := h

theorem noEmpties_remove_signatures_for_pfx_by (pfx : Pfx) (a : PublicInfo)
    (s : SectionListCache PublicInfo SectionList Signature) :
    noEmpties (remove_signatures_for_pfx_by pfx a s) := by
  simp only [remove_signatures_for_pfx_by]
  exact noEmpties_prune _

theorem noEmpties_add_signature (pfx : Pfx) (a : PublicInfo) (l : SectionList)
    (g : Signature) (n : Nat)
    (s : SectionListCache PublicInfo SectionList Signature) :
    noEmpties (add_signature QN QD pfx a l g n s) := by
  have h1 := noEmpties_remove_signatures_for_pfx_by pfx a s
  simp only [add_signature]
  apply noEmpties_update_lists_cache
  set s1 := remove_signatures_for_pfx_by pfx a s with hs1
  refine ⟨?_, ?_⟩
  · intro e he
    rcases mem_insertA he with h | h
    · subst h
      refine ⟨by simp [insertA], ?_⟩
      intro e2 he2
      rcases mem_insertA he2 with h | h
      · subst h
        simp [insertA]
      · cases hfind : findA pfx.unversioned s1.signatures with
        | none =>
          rw [hfind] at h
          simp at h
        | some m0 =>
          rw [hfind] at h
          simp only [Option.getD_some] at h
          exact (h1.1 _ (findA_mem hfind)).2 _ h
    · exact h1.1 _ h
  · intro e he
    rcases mem_insertA he with h | h
    · subst h
      simp [insertA]
    · exact h1.2 _ h

theorem noEmpties_remove_signatures (nameOf : PublicInfo → XorName)
    [DecidableEq XorName] (nm : XorName) (n : Nat)
    {s : SectionListCache PublicInfo SectionList Signature} (h : noEmpties s) :
    noEmpties (remove_signatures QN QD nameOf nm n s) := by
  unfold remove_signatures
  split
  · exact h
  · exact noEmpties_update_lists_cache QN QD n (noEmpties_prune _)

/-- C4: after every finite sequence of `add_signature` and `remove_signatures`
calls starting from a new (empty) cache, no prefix of the signatures index
maps to an empty list-map, no (prefix, list) entry has an empty signature set,
and no author of the `signed_by` index maps to an empty per-prefix map. -/
theorem c4_pruning_invariant (nameOf : PublicInfo → XorName) [DecidableEq XorName]
    (ops : List (CacheOp PublicInfo SectionList Signature XorName)) :
    noEmpties (applyOps QN QD nameOf ops new) := by
  have key : ∀ (ops2 : List (CacheOp PublicInfo SectionList Signature XorName))
      (s : SectionListCache PublicInfo SectionList Signature), noEmpties s →
      noEmpties (applyOps QN QD nameOf ops2 s) := by
    intro ops2
    induction ops2 with
    | nil =>
      intro s h
      exact h
    | cons op t ih =>
      intro s h
      have hstep : noEmpties (applyOp QN QD nameOf op s) := by
        cases op with
        | addSig pfx a l g n => exact noEmpties_add_signature QN QD pfx a l g n s
        | removeSigs nm n => exact noEmpties_remove_signatures QN QD nameOf nm n h
      exact ih (applyOp QN QD nameOf op s) hstep
  refine key ops new ⟨?_, ?_⟩ <;> intro e he <;> simp [new] at he

end SectionListCache

theorem bestEntry_eq_none {α : Type} : ∀ {l : List (α × Nat)},
    bestEntry l = none ↔ l = [] := by
  intro l
  cases l with
  | nil => simp [bestEntry]
  | cons e t =>
    simp only [bestEntry]
    cases bestEntry t with
    | none => simp
    | some b =>
      by_cases hb : e.2 < b.2 <;> simp [hb]

theorem bestEntry_mem {α : Type} : ∀ {l : List (α × Nat)} {b : α × Nat},
    bestEntry l = some b → b ∈ l := by
  intro l
  induction l with
  | nil =>
    intro b h
    simp [bestEntry] at h
  | cons e t ih =>
    intro b h
    simp only [bestEntry] at h
    cases hbt : bestEntry t with
    | none =>
      rw [hbt] at h
      simp at h
      rw [← h]
      exact List.mem_cons_self _ _
    | some b0 =>
      rw [hbt] at h
      by_cases hb : e.2 < b0.2
      · simp [hb] at h
        rw [← h]
        exact List.mem_cons_of_mem _ (ih hbt)
      · simp [hb] at h
        rw [← h]
        exact List.mem_cons_self _ _

theorem bestEntry_max {α : Type} : ∀ {l : List (α × Nat)} {b : α × Nat},
    bestEntry l = some b → ∀ x ∈ l, x.2 ≤ b.2 := by
  intro l
  induction l with
  | nil =>
    intro b h
    simp [bestEntry] at h
  | cons e t ih =>
    intro b h x hx
    simp only [bestEntry] at h
    cases hbt : bestEntry t with
    | none =>
      have ht : t = [] := bestEntry_eq_none.mp hbt
      rw [hbt] at h
      simp at h
      subst ht
      rcases List.mem_cons.mp hx with hx | hx
      · rw [hx, ← h]
      · simp at hx
    | some b0 =>
      rw [hbt] at h
      rcases List.mem_cons.mp hx with hx | hx
      · by_cases hb : e.2 < b0.2
        · simp [hb] at h
          rw [hx, ← h]
          exact le_of_lt hb
        · simp [hb] at h
          rw [hx, ← h]
      · have hx2 := ih hbt x hx
        by_cases hb : e.2 < b0.2
        · simp [hb] at h
          rw [← h]
          exact hx2
        · simp [hb] at h
          rw [← h]
          exact hx2.trans (not_lt.mp hb)

theorem keys_map_snd {κ α α2 : Type} (f : α → α2) (m : List (κ × α)) :
    ((m.map (fun e => (e.1, f e.2))).map Prod.fst) = m.map Prod.fst := by
  induction m <;> simp_all

theorem mem_emptyValKeys {κ β : Type} {p : κ} {m : List (κ × List β)} :
    p ∈ emptyValKeys m ↔ (p, ([] : List β)) ∈ m := by
  induction m with
  | nil => simp [emptyValKeys]
  | cons e t ih =>
    rcases e with ⟨k, v⟩
    cases v with
    | nil => simp [emptyValKeys, ih, List.mem_cons, eq_comm]
    | cons x xs => simp [emptyValKeys, ih, List.mem_cons]

theorem findA_dropEmptyVals_none {κ β : Type} [DecidableEq κ] {p : κ}
    {m : List (κ × List β)} (hnd : nodupKeys m)
    (h : findA p m = some ([] : List β)) :
    findA p (dropEmptyVals m) = none := by
  apply findA_eq_none_of_not_mem
  intro hk
  rcases mem_of_mem_keys hk with ⟨v, hv⟩
  have hvm := mem_dropEmptyVals.mp hv
  have h1 : findA p m = some v := findA_eq_of_mem_nodup hvm.1 hnd
  rw [h] at h1
  exact hvm.2 (Option.some.inj h1).symm

namespace SectionListCache

variable {PublicInfo SectionList Signature XorName : Type}
variable [DecidableEq PublicInfo] [DecidableEq SectionList]
variable (QN QD : Nat)

/-- The quorum decision `update_lists_cache` makes for one prefix, given its
list-map: the candidate with the most signatures, together with its own
signature set, if it passes the quorum predicate. -/
def quorumChoice (N : Nat)
    (m : List (SectionList × List (PublicInfo × Signature))) :
    Option (SectionList × List (PublicInfo × Signature)) :=
  match bestEntry (m.map (fun le => (le.1, le.2.length))) with
  | none => none
  | some (l, c) =>
    if N * QN < c * QD then
      match findA l m with
      | some sigs => some (l, sigs)
      | none => none
    else none

theorem findA_updateStep_ne (N : Nat)
    (lc : List (List Bool × (SectionList × List (PublicInfo × Signature))))
    (e2 : List Bool × List (SectionList × List (PublicInfo × Signature)))
    (p : List Bool) (h : e2.1 ≠ p) :
    findA p (updateStep QN QD N lc e2) = findA p lc := by
  unfold updateStep
  cases bestEntry (e2.2.map (fun le => (le.1, le.2.length))) with
  | none => rfl
  | some b =>
    rcases b with ⟨l, c⟩
    dsimp only
    by_cases hq : N * QN < c * QD
    · rw [if_pos hq]
      cases findA l e2.2 with
      | none => rfl
      | some sigs => exact findA_insertA_ne (Ne.symm h) _ _
    · rw [if_neg hq]

theorem findA_updateStep_self (N : Nat)
    (lc : List (List Bool × (SectionList × List (PublicInfo × Signature))))
    (e2 : List Bool × List (SectionList × List (PublicInfo × Signature))) :
    findA e2.1 (updateStep QN QD N lc e2) =
      match quorumChoice QN QD N e2.2 with
      | none => findA e2.1 lc
      | some v => some v := by
  unfold updateStep quorumChoice
  cases bestEntry (e2.2.map (fun le => (le.1, le.2.length))) with
  | none => rfl
  | some b =>
    rcases b with ⟨l, c⟩
    dsimp only
    by_cases hq : N * QN < c * QD
    · rw [if_pos hq, if_pos hq]
      cases findA l e2.2 with
      | none => rfl
      | some sigs => simp
    · rw [if_neg hq, if_neg hq]

theorem findA_foldl_updateStep (N : Nat) :
    ∀ (sigList : List (List Bool × List (SectionList × List (PublicInfo × Signature))))
      (lc : List (List Bool × (SectionList × List (PublicInfo × Signature))))
      (p : List Bool), nodupKeys sigList →
      findA p (sigList.foldl (updateStep QN QD N) lc) =
        match findA p sigList with
        | none => findA p lc
        | some m =>
          match quorumChoice QN QD N m with
          | none => findA p lc
          | some v => some v := by
  intro sigList
  induction sigList with
  | nil =>
    intro lc p _
    rfl
  | cons e0 t ih =>
    intro lc p hnd
    have hnd1 : (e0.1 :: t.map Prod.fst).Nodup := by
      simpa only [nodupKeys, List.map_cons] using hnd
    have hnd2 := List.nodup_cons.mp hnd1
    rw [List.foldl_cons]
    by_cases hp : e0.1 = p
    · subst hp
      have hnone : findA e0.1 t = none := findA_eq_none_of_not_mem hnd2.1
      rw [ih (updateStep QN QD N lc e0) e0.1 hnd2.2, hnone]
      rw [findA_cons, if_pos rfl]
      exact findA_updateStep_self QN QD N lc e0
    · have hskip : findA p (e0 :: t) = findA p t := by
        rw [findA_cons, if_neg hp]
      rw [ih (updateStep QN QD N lc e0) p hnd2.2, hskip,
        findA_updateStep_ne QN QD N lc e0 p hp]

theorem findA_update_lists_cache (N : Nat)
    (s : SectionListCache PublicInfo SectionList Signature)
    (hnd : nodupKeys s.signatures) (p : List Bool) :
    findA p (update_lists_cache QN QD N s).lists_cache =
      match findA p s.signatures with
      | none => findA p s.lists_cache
      | some m =>
        match quorumChoice QN QD N m with
        | none => findA p s.lists_cache
        | some v => some v :=
  findA_foldl_updateStep QN QD N s.signatures s.lists_cache p hnd

theorem isSome_updateStep (N : Nat)
    (lc : List (List Bool × (SectionList × List (PublicInfo × Signature))))
    (e2 : List Bool × List (SectionList × List (PublicInfo × Signature)))
    (p : List Bool) (h : (findA p lc).isSome) :
    (findA p (updateStep QN QD N lc e2)).isSome := by
  by_cases hp : e2.1 = p
  · subst hp
    rw [findA_updateStep_self]
    cases hq : quorumChoice QN QD N e2.2 with
    | none => exact h
    | some v => simp
  · rw [findA_updateStep_ne QN QD N lc e2 p hp]
    exact h

theorem isSome_foldl_updateStep (N : Nat) :
    ∀ (sigList : List (List Bool × List (SectionList × List (PublicInfo × Signature))))
      (lc : List (List Bool × (SectionList × List (PublicInfo × Signature))))
      (p : List Bool), (findA p lc).isSome →
      (findA p (sigList.foldl (updateStep QN QD N) lc)).isSome := by
  intro sigList
  induction sigList with
  | nil =>
    intro lc p h
    exact h
  | cons e0 t ih =>
    intro lc p h
    rw [List.foldl_cons]
    exact ih _ p (isSome_updateStep QN QD N lc e0 p h)

end SectionListCache

namespace SectionListCache

variable {PublicInfo SectionList Signature XorName : Type}
variable [DecidableEq PublicInfo] [DecidableEq SectionList]
variable (QN QD : Nat)

/-- C3: an entry of the quorum cache `lists_cache` is removed only by the
prune pass, and only when its prefix has lost every remaining signed list of
the signatures index: a recomputation whose best candidate for the prefix
fails the quorum predicate keeps the stale prior entry unchanged, a
recomputation never removes any entry, and whenever `prune` drops a cached
entry the prefix is gone from the pruned signatures index. -/
theorem c3_stale_quorum_entries :
    (∀ (s : SectionListCache PublicInfo SectionList Signature) (N : Nat)
        (p : List Bool) (e : SectionList × List (PublicInfo × Signature)),
      nodupKeys s.signatures →
      findA p s.lists_cache = some e →
      (∀ m, findA p s.signatures = some m → ∀ l c,
        bestEntry (m.map (fun le => (le.1, le.2.length))) = some (l, c) →
        ¬ (N * QN < c * QD)) →
      findA p (update_lists_cache QN QD N s).lists_cache = some e) ∧
    (∀ (s : SectionListCache PublicInfo SectionList Signature) (N : Nat)
        (p : List Bool) (e : SectionList × List (PublicInfo × Signature)),
      findA p s.lists_cache = some e →
      (findA p (update_lists_cache QN QD N s).lists_cache).isSome) ∧
    (∀ (s : SectionListCache PublicInfo SectionList Signature)
        (p : List Bool) (e : SectionList × List (PublicInfo × Signature)),
      nodupKeys s.signatures →
      findA p s.lists_cache = some e →
      findA p (prune s).lists_cache = none →
      findA p (prune s).signatures = none) := by
  refine ⟨?_, ?_, ?_⟩
  · intro s N p e hnd hlc hq
    rw [findA_update_lists_cache QN QD N s hnd p]
    cases hm : findA p s.signatures with
    | none => exact hlc
    | some m =>
      dsimp only
      have hqc : quorumChoice QN QD N m = none := by
        unfold quorumChoice
        cases hbest : bestEntry (m.map (fun le => (le.1, le.2.length))) with
        | none => rfl
        | some b =>
          rcases b with ⟨l, c⟩
          dsimp only
          rw [if_neg (hq m hm l c hbest)]
      rw [hqc]
      exact hlc
  · intro s N p e hlc
    exact isSome_foldl_updateStep QN QD N s.signatures s.lists_cache p
      (by rw [hlc]; rfl)
  · intro s p e hnd hlc hnone
    have hlc2 : findA p (prune s).lists_cache =
        findA p (eraseKeys
          (emptyValKeys (s.signatures.map (fun e2 => (e2.1, dropEmptyVals e2.2))))
          s.lists_cache) := rfl
    rw [hlc2, findA_eraseKeys] at hnone
    by_cases hp :
        p ∈ emptyValKeys (s.signatures.map (fun e2 => (e2.1, dropEmptyVals e2.2)))
    · have hmem := mem_emptyValKeys.mp hp
      have hnds1 : nodupKeys
          (s.signatures.map (fun e2 => (e2.1, dropEmptyVals e2.2))) := by
        simpa only [nodupKeys, keys_map_snd] using hnd
      have hfind : findA p
          (s.signatures.map (fun e2 => (e2.1, dropEmptyVals e2.2))) = some [] :=
        findA_eq_of_mem_nodup hmem hnds1
      show findA p
        (dropEmptyVals (s.signatures.map (fun e2 => (e2.1, dropEmptyVals e2.2)))) = none
      exact findA_dropEmptyVals_none hnds1 hfind
    · rw [if_neg hp] at hnone
      rw [hnone] at hlc
      cases hlc

/-- Witness for C3: a prefix whose only remaining list lost all signatures is
evicted from the quorum cache by `prune` together with its signatures entry. -/
theorem c3_stale_quorum_entries_witness :
    (nodupKeys ((⟨[([], [((5 : Nat), ([] : List (Nat × Nat)))])], [],
        [([], (5, [(1, 10)]))]⟩ :
      SectionListCache Nat Nat Nat)).signatures) ∧
    (findA [] ((⟨[([], [((5 : Nat), ([] : List (Nat × Nat)))])], [],
        [([], (5, [(1, 10)]))]⟩ :
      SectionListCache Nat Nat Nat)).lists_cache = some (5, [(1, 10)])) ∧
    (findA [] (prune (⟨[([], [((5 : Nat), ([] : List (Nat × Nat)))])], [],
        [([], (5, [(1, 10)]))]⟩ :
      SectionListCache Nat Nat Nat)).lists_cache = none) ∧
    (findA [] (prune (⟨[([], [((5 : Nat), ([] : List (Nat × Nat)))])], [],
        [([], (5, [(1, 10)]))]⟩ :
      SectionListCache Nat Nat Nat)).signatures = none) :=
  ⟨by decide, by decide, by decide,
    (c3_stale_quorum_entries 2 3).2.2 _ [] (5, [(1, 10)])
      (by decide) (by decide) (by decide)⟩

/-- C9: the quorum recomputation selects for each prefix exactly one candidate
`(list, signature-set)` pair — an actual entry of that prefix's map, with the
greatest signature count, stored with its own signature set (never a merge) —
and the selection is a pure function of the cache contents, so two runs over
the same contents pick the same candidate even under ties. -/
theorem c9_deterministic_selection (N : Nat)
    (s : SectionListCache PublicInfo SectionList Signature)
    (hnd : nodupKeys s.signatures)
    (hin : ∀ e ∈ s.signatures, nodupKeys e.2)
    (p : List Bool) (m : List (SectionList × List (PublicInfo × Signature)))
    (hm : findA p s.signatures = some m) (hne : m ≠ []) :
    ∃ l c sigs,
      bestEntry (m.map (fun le => (le.1, le.2.length))) = some (l, c) ∧
      (l, sigs) ∈ m ∧
      findA l m = some sigs ∧
      sigs.length = c ∧
      (∀ e ∈ m, e.2.length ≤ c) ∧
      findA p (update_lists_cache QN QD N s).lists_cache =
        (if N * QN < c * QD then some (l, sigs) else findA p s.lists_cache) := by
  have hb : (bestEntry (m.map (fun le => (le.1, le.2.length)))).isSome := by
    rw [Option.isSome_iff_ne_none]
    intro hnone
    have := bestEntry_eq_none.mp hnone
    simp at this
    exact hne this
  obtain ⟨⟨l, c⟩, hbest⟩ := Option.isSome_iff_exists.mp hb
  have hmemc := bestEntry_mem hbest
  rcases List.mem_map.mp hmemc with ⟨le, hle, hlee⟩
  have hl : le.1 = l := congrArg Prod.fst hlee
  have hc : le.2.length = c := congrArg Prod.snd hlee
  have hmem2 : (l, le.2) ∈ m := by
    rw [← hl]
    simpa using hle
  have hfind : findA l m = some le.2 :=
    findA_eq_of_mem_nodup hmem2 (hin _ (findA_mem hm))
  refine ⟨l, c, le.2, hbest, hmem2, hfind, hc, ?_, ?_⟩
  · intro e he
    have := bestEntry_max hbest (e.1, e.2.length) (List.mem_map_of_mem _ he)
    simpa using this
  · rw [findA_update_lists_cache QN QD N s hnd p, hm]
    dsimp only
    have hqc : quorumChoice QN QD N m =
        (if N * QN < c * QD then some (l, le.2) else none) := by
      unfold quorumChoice
      rw [hbest]
      dsimp only
      by_cases hq : N * QN < c * QD
      · rw [if_pos hq, if_pos hq, hfind]
      · rw [if_neg hq, if_neg hq]
    rw [hqc]
    by_cases hq : N * QN < c * QD
    · rw [if_pos hq, if_pos hq]
    · rw [if_neg hq, if_neg hq]

/-- Witness for C9 at a concrete two-candidate map: the three-signature list
wins and its own signature set is cached. -/
theorem c9_deterministic_selection_witness :
    (nodupKeys ((⟨[([], [((0 : Nat), [((1 : Nat), (10 : Nat)), (2, 20), (3, 30)]),
        (1, [(4, 40)])])], [], []⟩ :
      SectionListCache Nat Nat Nat)).signatures) ∧
    (∃ l c sigs,
      bestEntry (([((0 : Nat), [((1 : Nat), (10 : Nat)), (2, 20), (3, 30)]),
          (1, [(4, 40)])]).map (fun le => (le.1, le.2.length))) = some (l, c) ∧
      (l, sigs) ∈ [((0 : Nat), [((1 : Nat), (10 : Nat)), (2, 20), (3, 30)]),
          (1, [(4, 40)])] ∧
      findA l [((0 : Nat), [((1 : Nat), (10 : Nat)), (2, 20), (3, 30)]),
          (1, [(4, 40)])] = some sigs ∧
      sigs.length = c ∧
      (∀ e ∈ [((0 : Nat), [((1 : Nat), (10 : Nat)), (2, 20), (3, 30)]),
          (1, [(4, 40)])], e.2.length ≤ c) ∧
      findA [] (update_lists_cache 2 3 4
        (⟨[([], [((0 : Nat), [((1 : Nat), (10 : Nat)), (2, 20), (3, 30)]),
            (1, [(4, 40)])])], [], []⟩ :
          SectionListCache Nat Nat Nat)).lists_cache =
        (if 4 * 2 < c * 3 then some (l, sigs)
         else findA []
          ((⟨[([], [((0 : Nat), [((1 : Nat), (10 : Nat)), (2, 20), (3, 30)]),
              (1, [(4, 40)])])], [], []⟩ :
            SectionListCache Nat Nat Nat)).lists_cache)) :=
  ⟨by decide,
    c9_deterministic_selection 2 3 4 _ (by decide)
      (by intro e he; fin_cases he <;> decide) [] _ (by decide) (by decide)⟩

end SectionListCache

theorem keys_map_const {κ α β2 : Type} (c : β2) (m : List (κ × α)) :
    ((m.map (fun e => (e.1, c))).map Prod.fst) = m.map Prod.fst := by
  induction m <;> simp_all

namespace SectionListCache

variable {PublicInfo SectionList Signature XorName : Type}
variable [DecidableEq PublicInfo] [DecidableEq SectionList]
variable (QN QD : Nat)

theorem cache_ext {s1 s2 : SectionListCache PublicInfo SectionList Signature}
    (h1 : s1.signatures = s2.signatures) (h2 : s1.signed_by = s2.signed_by)
    (h3 : s1.lists_cache = s2.lists_cache) : s1 = s2 := by
  cases s1
  cases s2
  simp_all

/-- Fold of `add_signature` calls for a fixed prefix and fixed section list,
one author at a time: the single-author-churn scenario of the spec. -/
def addSeq (pfx : Pfx) (list : SectionList) (our_section_size : Nat)
    (pairs : List (PublicInfo × Signature))
    (s : SectionListCache PublicInfo SectionList Signature) :
    SectionListCache PublicInfo SectionList Signature :=
  pairs.foldl (fun st pr => add_signature QN QD pfx pr.1 list pr.2 our_section_size st) s

/-- The explicit cache state reached by `addSeq` from the empty cache. -/
def chainState (pfx : Pfx) (list : SectionList) (our_section_size : Nat) :
    List (PublicInfo × Signature) →
      SectionListCache PublicInfo SectionList Signature
  | [] => new
  | pr :: rest =>
    { signatures := [(pfx.unversioned, [(list, (pr :: rest).reverse)])]
      signed_by := ((pr :: rest).reverse).map
        (fun q => (q.1, [(pfx.unversioned, list)]))
      lists_cache :=
        if our_section_size * QN < (pr :: rest).length * QD
        then [(pfx.unversioned, (list, (pr :: rest).reverse))] else [] }

theorem findA_signed_by_chainState (pfx : Pfx) (list : SectionList) (N : Nat)
    (pairs : List (PublicInfo × Signature)) (a : PublicInfo)
    (ha : a ∉ pairs.map Prod.fst) :
    findA a (chainState QN QD pfx list N pairs).signed_by = none := by
  cases pairs with
  | nil => rfl
  | cons p0 rest =>
    apply findA_eq_none_of_not_mem
    show a ∉ (((p0 :: rest).reverse).map
      (fun q => (q.1, ([(pfx.unversioned, list)] : List (List Bool × SectionList))))).map Prod.fst
    rw [keys_map_const]
    intro hmem
    rw [List.map_reverse, List.mem_reverse] at hmem
    exact ha hmem

theorem eraseA_signed_by_chainState (pfx : Pfx) (list : SectionList) (N : Nat)
    (pairs : List (PublicInfo × Signature)) (a : PublicInfo)
    (ha : a ∉ pairs.map Prod.fst) :
    eraseA a (chainState QN QD pfx list N pairs).signed_by =
      (chainState QN QD pfx list N pairs).signed_by := by
  cases pairs with
  | nil => rfl
  | cons p0 rest =>
    apply eraseA_of_not_mem
    show a ∉ (((p0 :: rest).reverse).map
      (fun q => (q.1, ([(pfx.unversioned, list)] : List (List Bool × SectionList))))).map Prod.fst
    rw [keys_map_const]
    intro hmem
    rw [List.map_reverse, List.mem_reverse] at hmem
    exact ha hmem

theorem prune_chainState (pfx : Pfx) (list : SectionList) (N : Nat)
    (pairs : List (PublicInfo × Signature)) :
    prune (chainState QN QD pfx list N pairs) =
      chainState QN QD pfx list N pairs := by
  cases pairs with
  | nil => rfl
  | cons p0 rest =>
    have hrev : ((p0 :: rest).reverse : List (PublicInfo × Signature)) ≠ [] := by
      simp
    have h1 : dropEmptyVals [(list, (p0 :: rest).reverse)] =
        [(list, (p0 :: rest).reverse)] :=
      dropEmptyVals_of_forall_ne (by
        intro e he
        simp only [List.mem_singleton] at he
        rw [he]
        exact hrev)
    have h3 : dropEmptyVals (((p0 :: rest).reverse).map
          (fun q => (q.1, ([(pfx.unversioned, list)] : List (List Bool × SectionList))))) =
        ((p0 :: rest).reverse).map
          (fun q => (q.1, [(pfx.unversioned, list)])) :=
      dropEmptyVals_of_forall_ne (by
        intro e he
        rcases List.mem_map.mp he with ⟨q, _, hq⟩
        rw [← hq]
        simp)
    apply cache_ext
    · show dropEmptyVals (([(pfx.unversioned, [(list, (p0 :: rest).reverse)])].map
        (fun e => (e.1, dropEmptyVals e.2)))) = _
      rw [List.map_singleton]
      dsimp only
      rw [h1]
      rfl
    · show dropEmptyVals (((p0 :: rest).reverse).map
        (fun q => (q.1, [(pfx.unversioned, list)]))) = _
      rw [h3]
      rfl
    · show eraseKeys (emptyValKeys (([(pfx.unversioned, [(list, (p0 :: rest).reverse)])].map
        (fun e => (e.1, dropEmptyVals e.2))))) (chainState QN QD pfx list N (p0 :: rest)).lists_cache = _
      rw [List.map_singleton]
      dsimp only
      rw [h1]
      rfl

theorem remove_for_chainState (pfx : Pfx) (list : SectionList) (N : Nat)
    (pairs : List (PublicInfo × Signature)) (a : PublicInfo)
    (ha : a ∉ pairs.map Prod.fst) :
    remove_signatures_for_pfx_by pfx a (chainState QN QD pfx list N pairs) =
      chainState QN QD pfx list N pairs := by
  unfold remove_signatures_for_pfx_by
  rw [findA_signed_by_chainState QN QD pfx list N pairs a ha]
  dsimp only [Option.getD, List.filter, List.foldl]
  exact prune_chainState QN QD pfx list N pairs

theorem add_signature_chainState (pfx : Pfx) (list : SectionList) (N : Nat)
    (pairs : List (PublicInfo × Signature)) (a : PublicInfo) (g : Signature)
    (ha : a ∉ pairs.map Prod.fst) :
    add_signature QN QD pfx a list g N (chainState QN QD pfx list N pairs) =
      chainState QN QD pfx list N (pairs ++ [(a, g)]) := by
  have hrem := remove_for_chainState QN QD pfx list N pairs a ha
  have hfind := findA_signed_by_chainState QN QD pfx list N pairs a ha
  have herase := eraseA_signed_by_chainState QN QD pfx list N pairs a ha
  simp only [add_signature, hrem, hfind, Option.getD_none]
  cases pairs with
  | nil =>
    by_cases hq : N * QN < 1 * QD
    · apply cache_ext
      · rfl
      · rfl
      · show List.foldl (updateStep QN QD N) [] [(pfx.unversioned,
          insertA list (insertA a g (Option.getD (findA list (Option.getD
            (findA pfx.unversioned ([] : List _)) [])) []))
            (Option.getD (findA pfx.unversioned ([] : List _)) []))] = _
        simp [chainState, updateStep, insertA, bestEntry, hq]
    · apply cache_ext
      · rfl
      · rfl
      · show List.foldl (updateStep QN QD N) [] [(pfx.unversioned,
          insertA list (insertA a g (Option.getD (findA list (Option.getD
            (findA pfx.unversioned ([] : List _)) [])) []))
            (Option.getD (findA pfx.unversioned ([] : List _)) []))] = _
        simp [chainState, updateStep, insertA, bestEntry, hq]
  | cons p0 rest =>
    have hkeysrev : a ∉
        (((p0 :: rest) : List (PublicInfo × Signature)).reverse).map Prod.fst := by
      intro hmem
      rw [List.map_reverse, List.mem_reverse] at hmem
      exact ha hmem
    have hsig0 : (chainState QN QD pfx list N (p0 :: rest)).signatures =
        [(pfx.unversioned, [(list, (p0 :: rest).reverse)])] := rfl
    have hfinduP : findA pfx.unversioned [(pfx.unversioned,
        [(list, ((p0 :: rest) : List (PublicInfo × Signature)).reverse)])] =
        some [(list, (p0 :: rest).reverse)] := by simp
    have hfindlist : findA list
        [(list, ((p0 :: rest) : List (PublicInfo × Signature)).reverse)] =
        some ((p0 :: rest).reverse) := by simp
    have hinsa : insertA a g (((p0 :: rest) : List (PublicInfo × Signature)).reverse) =
        (a, g) :: (p0 :: rest).reverse := by
      simp only [insertA, eraseA_of_not_mem hkeysrev]
    have hbig : insertA pfx.unversioned
        (insertA list (insertA a g (Option.getD (findA list (Option.getD
            (findA pfx.unversioned (chainState QN QD pfx list N (p0 :: rest)).signatures) [])) []))
          (Option.getD (findA pfx.unversioned
            (chainState QN QD pfx list N (p0 :: rest)).signatures) []))
        (chainState QN QD pfx list N (p0 :: rest)).signatures =
        [(pfx.unversioned, [(list, (a, g) :: (p0 :: rest).reverse)])] := by
      rw [hsig0, hfinduP]
      simp only [Option.getD_some]
      rw [hfindlist]
      simp only [Option.getD_some]
      rw [hinsa]
      rw [show insertA list ((a, g) :: ((p0 :: rest) : List (PublicInfo × Signature)).reverse)
          [(list, ((p0 :: rest) : List (PublicInfo × Signature)).reverse)] =
        [(list, (a, g) :: (p0 :: rest).reverse)] from by simp [insertA]]
      simp [insertA]
    apply cache_ext
    · show insertA pfx.unversioned
        (insertA list (insertA a g (Option.getD (findA list (Option.getD
            (findA pfx.unversioned (chainState QN QD pfx list N (p0 :: rest)).signatures) [])) []))
          (Option.getD (findA pfx.unversioned
            (chainState QN QD pfx list N (p0 :: rest)).signatures) []))
        (chainState QN QD pfx list N (p0 :: rest)).signatures =
        (chainState QN QD pfx list N ((p0 :: rest) ++ [(a, g)])).signatures
      rw [hbig]
      rw [show (chainState QN QD pfx list N ((p0 :: rest) ++ [(a, g)])).signatures =
        [(pfx.unversioned, [(list, ((p0 :: rest) ++ [(a, g)]).reverse)])] from rfl]
      rw [List.reverse_append]
      simp
    · show insertA a (insertA pfx.unversioned list [])
        (chainState QN QD pfx list N (p0 :: rest)).signed_by =
        (chainState QN QD pfx list N ((p0 :: rest) ++ [(a, g)])).signed_by
      rw [show insertA a (insertA pfx.unversioned list ([] : List (List Bool × SectionList)))
          (chainState QN QD pfx list N (p0 :: rest)).signed_by =
        (a, [(pfx.unversioned, list)]) ::
          (chainState QN QD pfx list N (p0 :: rest)).signed_by from by
          simp only [insertA, eraseA_nil, herase]]
      rw [show (chainState QN QD pfx list N (p0 :: rest)).signed_by =
        (((p0 :: rest) : List (PublicInfo × Signature)).reverse).map
          (fun q => (q.1, [(pfx.unversioned, list)])) from rfl]
      rw [show (chainState QN QD pfx list N ((p0 :: rest) ++ [(a, g)])).signed_by =
        ((((p0 :: rest) ++ [(a, g)]) : List (PublicInfo × Signature)).reverse).map
          (fun q => (q.1, [(pfx.unversioned, list)])) from rfl]
      rw [List.reverse_append]
      simp
    · show List.foldl (updateStep QN QD N)
        (chainState QN QD pfx list N (p0 :: rest)).lists_cache
        (insertA pfx.unversioned
          (insertA list (insertA a g (Option.getD (findA list (Option.getD
              (findA pfx.unversioned (chainState QN QD pfx list N (p0 :: rest)).signatures) [])) []))
            (Option.getD (findA pfx.unversioned
              (chainState QN QD pfx list N (p0 :: rest)).signatures) []))
          (chainState QN QD pfx list N (p0 :: rest)).signatures) =
        (chainState QN QD pfx list N ((p0 :: rest) ++ [(a, g)])).lists_cache
      rw [hbig]
      rw [List.foldl_cons, List.foldl_nil]
      rw [show updateStep QN QD N (chainState QN QD pfx list N (p0 :: rest)).lists_cache
          (pfx.unversioned, [(list, (a, g) :: (p0 :: rest).reverse)]) =
        (if N * QN < ((a, g) :: ((p0 :: rest) :
            List (PublicInfo × Signature)).reverse).length * QD
         then insertA pfx.unversioned (list, (a, g) :: (p0 :: rest).reverse)
           (chainState QN QD pfx list N (p0 :: rest)).lists_cache
         else (chainState QN QD pfx list N (p0 :: rest)).lists_cache) from by
          unfold updateStep
          rw [show bestEntry ([(list, (a, g) :: ((p0 :: rest) :
              List (PublicInfo × Signature)).reverse)].map (fun le => (le.1, le.2.length))) =
            some (list, ((a, g) :: ((p0 :: rest) :
              List (PublicInfo × Signature)).reverse).length) from by
              simp [bestEntry]]
          dsimp only
          by_cases hq : N * QN < ((a, g) :: ((p0 :: rest) :
              List (PublicInfo × Signature)).reverse).length * QD
          · rw [if_pos hq, if_pos hq]
            rw [show findA list [(list, (a, g) :: ((p0 :: rest) :
                List (PublicInfo × Signature)).reverse)] =
              some ((a, g) :: (p0 :: rest).reverse) from by simp]
          · rw [if_neg hq, if_neg hq]]
      have hlen : ((a, g) :: ((p0 :: rest) :
          List (PublicInfo × Signature)).reverse).length = (p0 :: rest).length + 1 := by
        simp
      have hlen2 : (((p0 :: rest) ++ [(a, g)]) :
          List (PublicInfo × Signature)).length = (p0 :: rest).length + 1 := by
        simp
      rw [show (chainState QN QD pfx list N ((p0 :: rest) ++ [(a, g)])).lists_cache =
        (if N * QN < (((p0 :: rest) ++ [(a, g)]) :
            List (PublicInfo × Signature)).length * QD
         then [(pfx.unversioned, (list, ((p0 :: rest) ++ [(a, g)]).reverse))]
         else []) from rfl]
      rw [hlen, hlen2]
      by_cases hq : N * QN < ((p0 :: rest).length + 1) * QD
      · rw [if_pos hq, if_pos hq]
        rw [show (chainState QN QD pfx list N (p0 :: rest)).lists_cache =
          (if N * QN < ((p0 :: rest) : List (PublicInfo × Signature)).length * QD
           then [(pfx.unversioned, (list, (p0 :: rest).reverse))] else []) from rfl]
        rw [List.reverse_append]
        by_cases hq0 : N * QN < ((p0 :: rest) : List (PublicInfo × Signature)).length * QD
        · rw [if_pos hq0]
          simp [insertA]
        · rw [if_neg hq0]
          simp [insertA]
      · rw [if_neg hq, if_neg hq]
        have hq0 : ¬ N * QN <
            ((p0 :: rest) : List (PublicInfo × Signature)).length * QD := by
          intro hlt
          exact hq (lt_of_lt_of_le hlt (Nat.mul_le_mul_right QD (Nat.le_succ _)))
        rw [show (chainState QN QD pfx list N (p0 :: rest)).lists_cache =
          (if N * QN < ((p0 :: rest) : List (PublicInfo × Signature)).length * QD
           then [(pfx.unversioned, (list, (p0 :: rest).reverse))] else []) from rfl]
        rw [if_neg hq0]

/-- C1: starting from the empty cache with a fixed prefix and fixed section
size, adding signatures for the same section list one at a time from
pairwise-distinct authors, the quorum lookup for the prefix returns `none`
exactly while the accumulated count `c` satisfies `c * QUORUM_DENOMINATOR ≤ N
* QUORUM_NUMERATOR`, and returns that list with all `c` accumulated
signatures as soon as — and for as long as — the strict inequality holds. -/
theorem c1_quorum_monotone (pfx : Pfx) (list : SectionList) (N : Nat)
    (pairs : List (PublicInfo × Signature))
    (hnd : (pairs.map Prod.fst).Nodup) :
    (pairs.length * QD ≤ N * QN →
      get_signatures pfx (addSeq QN QD pfx list N pairs new) = none) ∧
    (N * QN < pairs.length * QD →
      get_signatures pfx (addSeq QN QD pfx list N pairs new) =
        some (list, pairs.reverse)) := by
  have hchain : ∀ (ps : List (PublicInfo × Signature)), (ps.map Prod.fst).Nodup →
      addSeq QN QD pfx list N ps new = chainState QN QD pfx list N ps := by
    intro ps
    induction ps using List.reverseRecOn with
    | nil =>
      intro _
      rfl
    | append_singleton l x ih =>
      intro hnd2
      rw [List.map_append, List.nodup_append] at hnd2
      have hl : (l.map Prod.fst).Nodup := hnd2.1
      have hx : x.1 ∉ l.map Prod.fst := by
        intro hmem
        have := hnd2.2.2 hmem
        simp at this
      show List.foldl _ new (l ++ [x]) = _
      rw [List.foldl_append]
      rw [show List.foldl (fun st pr =>
          add_signature QN QD pfx pr.1 list pr.2 N st) new l =
        addSeq QN QD pfx list N l new from rfl]
      rw [ih hl]
      rcases x with ⟨a0, g0⟩
      exact add_signature_chainState QN QD pfx list N l a0 g0 hx
  rw [hchain pairs hnd]
  cases pairs with
  | nil =>
    constructor
    · intro _
      rfl
    · intro h
      simp at h
  | cons p0 rest =>
    constructor
    · intro hle
      show findA pfx.unversioned
        (if N * QN < ((p0 :: rest) : List (PublicInfo × Signature)).length * QD
         then [(pfx.unversioned, (list, (p0 :: rest).reverse))] else []) = none
      rw [if_neg (not_lt.mpr hle)]
      rfl
    · intro hlt
      show findA pfx.unversioned
        (if N * QN < ((p0 :: rest) : List (PublicInfo × Signature)).length * QD
         then [(pfx.unversioned, (list, (p0 :: rest).reverse))] else []) =
        some (list, (p0 :: rest).reverse)
      rw [if_pos hlt]
      simp

/-- Witness for C1: three distinct authors, section size 4, quorum 2/3 — the
third signature is the first to reach quorum, and all three are returned. -/
theorem c1_quorum_monotone_witness :
    (([((1 : Nat), (10 : Nat)), (2, 20), (3, 30)].map Prod.fst).Nodup) ∧
    (4 * 2 < [((1 : Nat), (10 : Nat)), (2, 20), (3, 30)].length * 3) ∧
    get_signatures (⟨[], 0⟩ : Pfx)
      (addSeq 2 3 ⟨[], 0⟩ (0 : Nat) 4 [((1 : Nat), (10 : Nat)), (2, 20), (3, 30)]
        new) = some (0, [(3, 30), (2, 20), (1, 10)]) :=
  ⟨by decide, by decide,
    (c1_quorum_monotone 2 3 ⟨[], 0⟩ 0 4 [(1, 10), (2, 20), (3, 30)]
      (by decide)).2 (by decide)⟩

end SectionListCache

theorem not_mem_keys_of_findA_eq_none {κ α : Type} [DecidableEq κ] {k : κ}
    {m : List (κ × α)} (h : findA k m = none) : k ∉ m.map Prod.fst := by
  induction m with
  | nil => simp
  | cons e t ih =>
    by_cases he : e.1 = k
    · simp [he] at h
    · simp [he] at h
      rw [List.map_cons]
      intro hmem
      rcases List.mem_cons.mp hmem with hh | hh
      · exact he hh.symm
      · exact ih h hh

theorem nodupKeys_dropEmptyVals {κ β : Type} [DecidableEq κ]
    {m : List (κ × List β)} (h : nodupKeys m) : nodupKeys (dropEmptyVals m) :=
  ((sublist_dropEmptyVals m).map Prod.fst).nodup h

theorem findA_dropEmptyVals_none_of_none {κ β : Type} [DecidableEq κ] {p : κ}
    {m : List (κ × List β)} (h : findA p m = none) :
    findA p (dropEmptyVals m) = none :=
  findA_eq_none_of_not_mem (fun hmem =>
    not_mem_keys_of_findA_eq_none h
      (((sublist_dropEmptyVals m).map Prod.fst).subset hmem))

theorem findA_dropEmptyVals_cons {κ β : Type} [DecidableEq κ] {p : κ}
    {m : List (κ × List β)} {x : β} {xs : List β}
    (hnd : nodupKeys m) (h : findA p m = some (x :: xs)) :
    findA p (dropEmptyVals m) = some (x :: xs) :=
  findA_eq_of_mem_nodup (mem_dropEmptyVals.mpr ⟨findA_mem h, by simp⟩)
    (nodupKeys_dropEmptyVals hnd)

theorem findA_map_snd {κ α α2 : Type} [DecidableEq κ] (f : α → α2) (p : κ)
    (m : List (κ × α)) :
    findA p (m.map (fun e => (e.1, f e.2))) = (findA p m).map f := by
  induction m with
  | nil => rfl
  | cons e t ih =>
    by_cases he : e.1 = p <;> simp [he, ih]

/-- Modelled from the spec: compatibility is symmetric — overlap of address
ranges does not depend on the order of the two prefixes. -/
theorem compat_symm {p q : List Bool} (h : compat p q = true) :
    compat q p = true := by
  simp only [compat, Bool.or_eq_true] at h ⊢
  exact h.symm

namespace SectionListCache

variable {PublicInfo SectionList Signature XorName : Type}
variable [DecidableEq PublicInfo] [DecidableEq SectionList]
variable (QN QD : Nat)

/-- Three-level lookup in a signatures index (prefix, then list, then
author), the shape of `get_signature_for`. -/
def sigChain
    (sg : List (List Bool × List (SectionList × List (PublicInfo × Signature))))
    (p : List Bool) (l : SectionList) (a : PublicInfo) : Option Signature :=
  ((findA p sg).bind (fun lists => findA l lists)).bind (fun sigs => findA a sigs)

theorem get_signature_for_eq_sigChain (pfx : Pfx) (a : PublicInfo)
    (l : SectionList) (s : SectionListCache PublicInfo SectionList Signature) :
    get_signature_for pfx a l s = sigChain s.signatures pfx.unversioned l a := rfl

theorem sigChain_modify_self (a : PublicInfo) (p0 : List Bool) (l0 : SectionList)
    (sg : List (List Bool × List (SectionList × List (PublicInfo × Signature)))) :
    sigChain (modifyA p0 (modifyA l0 (eraseA a)) sg) p0 l0 a = none := by
  unfold sigChain
  rw [findA_modifyA_self]
  cases hm : findA p0 sg with
  | none => rfl
  | some m =>
    simp only [Option.map_some', Option.some_bind]
    rw [findA_modifyA_self]
    cases hl : findA l0 m with
    | none => rfl
    | some sigs =>
      simp only [Option.map_some', Option.some_bind]
      exact findA_eraseA_self a sigs

theorem sigChain_modify_none (a : PublicInfo) (p0 : List Bool) (l0 : SectionList)
    {sg : List (List Bool × List (SectionList × List (PublicInfo × Signature)))}
    {p : List Bool} {l : SectionList}
    (h : sigChain sg p l a = none) :
    sigChain (modifyA p0 (modifyA l0 (eraseA a)) sg) p l a = none := by
  by_cases hp : p = p0
  · subst hp
    by_cases hl : l = l0
    · subst hl
      exact sigChain_modify_self a p l sg
    · unfold sigChain at h ⊢
      rw [findA_modifyA_self]
      cases hm : findA p sg with
      | none => rfl
      | some m =>
        rw [hm] at h
        simp only [Option.map_some', Option.some_bind] at h ⊢
        rw [findA_modifyA_ne (fun hh => hl hh) (eraseA a) m]
        exact h
  · unfold sigChain at h ⊢
    rw [findA_modifyA_ne (fun hh => hp hh) _ sg]
    exact h

theorem removeFold_signatures (a : PublicInfo) :
    ∀ (ts : List (List Bool × SectionList))
      (s : SectionListCache PublicInfo SectionList Signature),
    (ts.foldl (fun st pl =>
      { st with
          signatures := modifyA pl.1 (modifyA pl.2 (eraseA a)) st.signatures
          signed_by := modifyA a (eraseA pl.1) st.signed_by }) s).signatures =
    ts.foldl (fun sg pl => modifyA pl.1 (modifyA pl.2 (eraseA a)) sg) s.signatures := by
  intro ts
  induction ts with
  | nil =>
    intro s
    rfl
  | cons pl0 t ih =>
    intro s
    rw [List.foldl_cons, List.foldl_cons]
    exact ih _

theorem sigChain_fold_none (a : PublicInfo) :
    ∀ (ts : List (List Bool × SectionList))
      (sg : List (List Bool × List (SectionList × List (PublicInfo × Signature))))
      (p : List Bool) (l : SectionList),
    ((p, l) ∈ ts ∨ sigChain sg p l a = none) →
    sigChain (ts.foldl (fun sg2 pl => modifyA pl.1 (modifyA pl.2 (eraseA a)) sg2) sg)
      p l a = none := by
  intro ts
  induction ts with
  | nil =>
    intro sg p l h
    rcases h with h | h
    · simp at h
    · exact h
  | cons pl0 t ih =>
    intro sg p l h
    rw [List.foldl_cons]
    rcases h with h | h
    · rcases List.mem_cons.mp h with h | h
      · have h1 : pl0.1 = p := by rw [← h]
        have h2 : pl0.2 = l := by rw [← h]
        apply ih
        right
        rw [h1, h2]
        exact sigChain_modify_self a p l sg
      · exact ih _ p l (Or.inl h)
    · exact ih _ p l (Or.inr (sigChain_modify_none a pl0.1 pl0.2 h))

theorem sigChain_prune_none
    {s : SectionListCache PublicInfo SectionList Signature}
    (hnd : nodupKeys s.signatures)
    (hin : ∀ e ∈ s.signatures, nodupKeys e.2)
    {p : List Bool} {l : SectionList} {a : PublicInfo}
    (h : sigChain s.signatures p l a = none) :
    sigChain (prune s).signatures p l a = none := by
  have hsig : (prune s).signatures =
      dropEmptyVals (s.signatures.map (fun e => (e.1, dropEmptyVals e.2))) := rfl
  have hnd1 : nodupKeys (s.signatures.map (fun e => (e.1, dropEmptyVals e.2))) := by
    simpa only [nodupKeys, keys_map_snd] using hnd
  rw [hsig]
  unfold sigChain at h ⊢
  cases hm : findA p s.signatures with
  | none =>
    rw [findA_dropEmptyVals_none_of_none (by rw [findA_map_snd, hm]; rfl)]
    rfl
  | some m =>
    rw [hm] at h
    simp only [Option.some_bind] at h
    have hmin : nodupKeys m := hin _ (findA_mem hm)
    have hmap : findA p (s.signatures.map (fun e => (e.1, dropEmptyVals e.2))) =
        some (dropEmptyVals m) := by
      rw [findA_map_snd, hm]
      rfl
    cases hdm : dropEmptyVals m with
    | nil =>
      rw [findA_dropEmptyVals_none hnd1 (by rw [hmap, hdm])]
      rfl
    | cons x xs =>
      rw [findA_dropEmptyVals_cons hnd1 (by rw [hmap, hdm])]
      simp only [Option.some_bind]
      rw [← hdm]
      cases hl : findA l m with
      | none =>
        rw [findA_dropEmptyVals_none_of_none hl]
        rfl
      | some sigs =>
        rw [hl] at h
        simp only [Option.some_bind] at h
        cases sigs with
        | nil =>
          rw [findA_dropEmptyVals_none hmin hl]
          rfl
        | cons y ys =>
          rw [findA_dropEmptyVals_cons hmin hl]
          simpa using h

theorem sigChain_insert_ne
    {sg : List (List Bool × List (SectionList × List (PublicInfo × Signature)))}
    {uP uP2 : List Bool} {l1 l2 : SectionList} {a : PublicInfo}
    (v : List (PublicInfo × Signature))
    (hne : uP2 ≠ uP ∨ l2 ≠ l1)
    (h : sigChain sg uP l1 a = none) :
    sigChain (insertA uP2 (insertA l2 v ((findA uP2 sg).getD [])) sg) uP l1 a = none := by
  unfold sigChain at h ⊢
  by_cases hp : uP2 = uP
  · subst hp
    have hl : l2 ≠ l1 := by
      rcases hne with hne | hne
      · exact absurd rfl hne
      · exact hne
    rw [findA_insertA_self]
    simp only [Option.some_bind]
    rw [findA_insertA_ne (fun hh => hl hh.symm)]
    cases hm : findA uP2 sg with
    | none => rfl
    | some m =>
      rw [hm] at h
      simp only [Option.some_bind] at h
      simpa using h
  · rw [findA_insertA_ne (fun hh => hp hh.symm)]
    exact h

/-- Key-uniqueness at every level of the two mutable indices — the state of
affairs every Rust `HashMap` guarantees by construction. -/
def wfCache (s : SectionListCache PublicInfo SectionList Signature) : Prop :=
  nodupKeys s.signatures ∧ (∀ e ∈ s.signatures, nodupKeys e.2) ∧
  nodupKeys s.signed_by ∧ (∀ e ∈ s.signed_by, nodupKeys e.2)

theorem wfCache_new :
    wfCache (new : SectionListCache PublicInfo SectionList Signature) := by
  refine ⟨by simp [new, nodupKeys], ?_, by simp [new, nodupKeys], ?_⟩ <;>
    intro e he <;> simp [new] at he

theorem wfCache_removeFold (a : PublicInfo) :
    ∀ (ts : List (List Bool × SectionList))
      (s : SectionListCache PublicInfo SectionList Signature), wfCache s →
    wfCache (ts.foldl (fun st pl =>
      { st with
          signatures := modifyA pl.1 (modifyA pl.2 (eraseA a)) st.signatures
          signed_by := modifyA a (eraseA pl.1) st.signed_by }) s) := by
  intro ts
  induction ts with
  | nil =>
    intro s h
    exact h
  | cons pl0 t ih =>
    intro s h
    rw [List.foldl_cons]
    apply ih
    obtain ⟨h1, h2, h3, h4⟩ := h
    refine ⟨nodupKeys_modifyA h1 _ _, ?_, nodupKeys_modifyA h3 _ _, ?_⟩
    · intro e he
      rcases mem_modifyA he with he2 | ⟨e0, he0, heq⟩
      · exact h2 _ he2
      · rw [heq]
        exact nodupKeys_modifyA (h2 _ he0) _ _
    · intro e he
      rcases mem_modifyA he with he2 | ⟨e0, he0, heq⟩
      · exact h4 _ he2
      · rw [heq]
        exact nodupKeys_eraseA (h4 _ he0) _

theorem wfCache_sigFold (a : PublicInfo) :
    ∀ (ts : List (List Bool × SectionList))
      (s : SectionListCache PublicInfo SectionList Signature), wfCache s →
    wfCache (ts.foldl (fun st pl =>
      { st with
          signatures := modifyA pl.1 (modifyA pl.2 (eraseA a)) st.signatures }) s) := by
  intro ts
  induction ts with
  | nil =>
    intro s h
    exact h
  | cons pl0 t ih =>
    intro s h
    rw [List.foldl_cons]
    apply ih
    obtain ⟨h1, h2, h3, h4⟩ := h
    refine ⟨nodupKeys_modifyA h1 _ _, ?_, h3, h4⟩
    intro e he
    rcases mem_modifyA he with he2 | ⟨e0, he0, heq⟩
    · exact h2 _ he2
    · rw [heq]
      exact nodupKeys_modifyA (h2 _ he0) _ _

theorem wfCache_prune {s : SectionListCache PublicInfo SectionList Signature}
    (h : wfCache s) : wfCache (prune s) := by
  obtain ⟨h1, h2, h3, h4⟩ := h
  have hnd1 : nodupKeys (s.signatures.map (fun e => (e.1, dropEmptyVals e.2))) := by
    simpa only [nodupKeys, keys_map_snd] using h1
  refine ⟨nodupKeys_dropEmptyVals hnd1, ?_, nodupKeys_dropEmptyVals h3, ?_⟩
  · intro e he
    have he2 := (mem_dropEmptyVals.mp he).1
    rcases List.mem_map.mp he2 with ⟨e0, he0, heq⟩
    rw [← heq]
    exact nodupKeys_dropEmptyVals (h2 _ he0)
  · intro e he
    exact h4 _ (mem_dropEmptyVals.mp he).1

theorem wfCache_update_lists_cache (n : Nat)
    {s : SectionListCache PublicInfo SectionList Signature} (h : wfCache s) :
    wfCache (update_lists_cache QN QD n s) := h

theorem wfCache_add_signature (pfx : Pfx) (a : PublicInfo) (l : SectionList)
    (g : Signature) (n : Nat)
    {s : SectionListCache PublicInfo SectionList Signature} (h : wfCache s) :
    wfCache (add_signature QN QD pfx a l g n s) := by
  have h1 : wfCache (remove_signatures_for_pfx_by pfx a s) := by
    unfold remove_signatures_for_pfx_by
    exact wfCache_prune (wfCache_removeFold a _ _ h)
  obtain ⟨ha1, ha2, ha3, ha4⟩ := h1
  apply wfCache_update_lists_cache
  refine ⟨nodupKeys_insertA ha1 _ _, ?_, nodupKeys_insertA ha3 _ _, ?_⟩
  · intro e he
    rcases mem_insertA he with heq | he2
    · rw [heq]
      have hinner : nodupKeys ((findA pfx.unversioned
          (remove_signatures_for_pfx_by pfx a s).signatures).getD []) := by
        cases hf : findA pfx.unversioned
            (remove_signatures_for_pfx_by pfx a s).signatures with
        | none => simp [nodupKeys]
        | some mm =>
          simp only [Option.getD_some]
          exact ha2 _ (findA_mem hf)
      exact nodupKeys_insertA hinner _ _
    · exact ha2 _ he2
  · intro e he
    rcases mem_insertA he with heq | he2
    · rw [heq]
      have hinner : nodupKeys ((findA a
          (remove_signatures_for_pfx_by pfx a s).signed_by).getD []) := by
        cases hf : findA a (remove_signatures_for_pfx_by pfx a s).signed_by with
        | none => simp [nodupKeys]
        | some mm =>
          simp only [Option.getD_some]
          exact ha4 _ (findA_mem hf)
      exact nodupKeys_insertA hinner _ _
    · exact ha4 _ he2

theorem wfCache_remove_signatures (nameOf : PublicInfo → XorName)
    [DecidableEq XorName] (nm : XorName) (n : Nat)
    {s : SectionListCache PublicInfo SectionList Signature} (h : wfCache s) :
    wfCache (remove_signatures QN QD nameOf nm n s) := by
  unfold remove_signatures
  split
  · exact h
  · apply wfCache_update_lists_cache
    apply wfCache_prune
    apply wfCache_sigFold
    obtain ⟨h1, h2, h3, h4⟩ := h
    refine ⟨h1, h2, nodupKeys_eraseA h3 _, ?_⟩
    intro e he
    exact h4 _ ((eraseA_sublist _ _).subset he)

/-- C2 (amended): after `add_signature(P, A, L1, sig1, N)` followed by
`add_signature(P', A, L2, sig2, N)` with P' compatible with P (including
P' = P), the cache retains no signature by A for L1 under P — provided the
second call does not target the very same (unversioned prefix, list) pair,
i.e. `(P'.unversioned, L2) ≠ (P.unversioned, L1)`; in the excluded case the
second call re-records A's signature for that pair. -/
theorem c2_author_exclusivity (pfx pfx2 : Pfx) (a : PublicInfo)
    (l1 l2 : SectionList) (g1 g2 : Signature) (N : Nat)
    (s : SectionListCache PublicInfo SectionList Signature)
    (hwf : wfCache s)
    (hcompat : compat pfx2.unversioned pfx.unversioned = true)
    (hne : pfx2.unversioned ≠ pfx.unversioned ∨ l2 ≠ l1) :
    get_signature_for pfx a l1
      (add_signature QN QD pfx2 a l2 g2 N
        (add_signature QN QD pfx a l1 g1 N s)) = none := by
  have hwf1 : wfCache (add_signature QN QD pfx a l1 g1 N s) :=
    wfCache_add_signature QN QD pfx a l1 g1 N hwf
  set s1 := add_signature QN QD pfx a l1 g1 N s with hs1
  have hsb1 : findA pfx.unversioned ((findA a s1.signed_by).getD []) = some l1 := by
    rw [show s1.signed_by = insertA a
        (insertA pfx.unversioned l1
          ((findA a (remove_signatures_for_pfx_by pfx a s).signed_by).getD []))
        (remove_signatures_for_pfx_by pfx a s).signed_by from rfl]
    rw [findA_insertA_self, Option.getD_some]
    exact findA_insertA_self _ _ _
  set m1 := (findA a s1.signed_by).getD [] with hm1
  set toR := m1.filter (fun e => compat e.1 pfx2.unversioned) with htoR
  set sFold := toR.foldl (fun st pl =>
    { st with
        signatures := modifyA pl.1 (modifyA pl.2 (eraseA a)) st.signatures
        signed_by := modifyA a (eraseA pl.1) st.signed_by }) s1 with hsF
  have hr2 : remove_signatures_for_pfx_by pfx2 a s1 = prune sFold := rfl
  have hmemR : ((pfx.unversioned, l1) : List Bool × SectionList) ∈ toR := by
    rw [htoR, List.mem_filter]
    exact ⟨findA_mem hsb1, compat_symm hcompat⟩
  have hwfF : wfCache sFold := by
    rw [hsF]
    exact wfCache_removeFold a toR s1 hwf1
  have hsigF : sFold.signatures =
      toR.foldl (fun sg pl => modifyA pl.1 (modifyA pl.2 (eraseA a)) sg)
        s1.signatures := by
    rw [hsF]
    exact removeFold_signatures a toR s1
  have hnone1 : sigChain sFold.signatures pfx.unversioned l1 a = none := by
    rw [hsigF]
    exact sigChain_fold_none a toR s1.signatures pfx.unversioned l1 (Or.inl hmemR)
  have hnone2 : sigChain (prune sFold).signatures pfx.unversioned l1 a = none :=
    sigChain_prune_none hwfF.1 hwfF.2.1 hnone1
  rw [get_signature_for_eq_sigChain]
  rw [show (add_signature QN QD pfx2 a l2 g2 N s1).signatures =
    insertA pfx2.unversioned
      (insertA l2
        (insertA a g2 ((findA l2 ((findA pfx2.unversioned
            (remove_signatures_for_pfx_by pfx2 a s1).signatures).getD [])).getD []))
        ((findA pfx2.unversioned
          (remove_signatures_for_pfx_by pfx2 a s1).signatures).getD []))
      (remove_signatures_for_pfx_by pfx2 a s1).signatures from rfl]
  rw [hr2]
  exact sigChain_insert_ne _ hne hnone2

/-- Counterexample to C2 as stated: the claim quantifies over every pair of
lists including L2 = L1 and allows P' = P, but with the same unversioned
prefix and the same list the second `add_signature` re-records the author's
signature, so `get_signature_for` returns the new signature, not `none`. -/
theorem c2_author_exclusivity_counterexample :
    compat (Pfx.mk [] 0).unversioned (Pfx.mk [] 0).unversioned = true ∧
    get_signature_for (Pfx.mk [] 0) (7 : Nat) (5 : Nat)
      (add_signature 2 3 (Pfx.mk [] 0) 7 5 (2 : Nat) 4
        (add_signature 2 3 (Pfx.mk [] 0) 7 5 (1 : Nat) 4
          (new : SectionListCache Nat Nat Nat))) = some 2 := by
  constructor
  · rfl
  · decide

/-- Witness for the amended C2: same prefix, a different list — the author's
old signature is gone. -/
theorem c2_author_exclusivity_witness :
    wfCache (new : SectionListCache Nat Nat Nat) ∧
    compat (Pfx.mk [] 0).unversioned (Pfx.mk [] 0).unversioned = true ∧
    ((Pfx.mk [] 0).unversioned ≠ (Pfx.mk [] 0).unversioned ∨ (6 : Nat) ≠ (5 : Nat)) ∧
    get_signature_for (Pfx.mk [] 0) (7 : Nat) (5 : Nat)
      (add_signature 2 3 (Pfx.mk [] 0) 7 6 (2 : Nat) 4
        (add_signature 2 3 (Pfx.mk [] 0) 7 5 (1 : Nat) 4
          (new : SectionListCache Nat Nat Nat))) = none :=
  ⟨wfCache_new, by decide, by decide,
    c2_author_exclusivity 2 3 (Pfx.mk [] 0) (Pfx.mk [] 0) 7 5 6 1 2 4 new
      wfCache_new (by decide) (by decide)⟩

end SectionListCache

theorem eq_nil_of_dropEmptyVals_eq_nil {κ β : Type} [DecidableEq κ]
    {m : List (κ × List β)}
    (h : dropEmptyVals m = []) : ∀ e ∈ m, e.2 = [] := by
  intro e he
  by_contra hne
  have hmem : e ∈ dropEmptyVals m := mem_dropEmptyVals.mpr ⟨he, hne⟩
  rw [h] at hmem
  simp at hmem

/-- Modelled from the spec: every bit string is an ancestor of itself. -/
theorem bitsLe_refl : ∀ (p : List Bool), bitsLe p p = true := by
  intro p
  induction p with
  | nil => rfl
  | cons b t ih => simp [bitsLe, ih]

/-- Modelled from the spec: compatibility is reflexive. -/
theorem compat_refl (p : List Bool) : compat p p = true := by
  simp [compat, bitsLe_refl]

namespace SectionListCache

variable {PublicInfo SectionList Signature XorName : Type}
variable [DecidableEq PublicInfo] [DecidableEq SectionList]
variable (QN QD : Nat)

/-- Two-level lookup in a `signed_by` index (author, then prefix). -/
def sbChain (sb : List (PublicInfo × List (List Bool × SectionList)))
    (a : PublicInfo) (p : List Bool) : Option SectionList :=
  (findA a sb).bind (fun m => findA p m)

/-- Mutual consistency of the two indices: author A vouches for list l under
prefix p in `signed_by` exactly when A has a signature recorded in
`signatures[p][l]`. -/
def consistent (s : SectionListCache PublicInfo SectionList Signature) : Prop :=
  ∀ (a : PublicInfo) (p : List Bool) (l : SectionList),
    sbChain s.signed_by a p = some l ↔
      (sigChain s.signatures p l a).isSome

theorem consistent_new :
    consistent (new : SectionListCache PublicInfo SectionList Signature) := by
  intro a p l
  constructor
  · intro h
    simp [sbChain, new, findA] at h
  · intro h
    simp [sigChain, new, findA] at h

theorem sbChain_dropEmptyVals_eq
    {sb : List (PublicInfo × List (List Bool × SectionList))}
    (hnd : nodupKeys sb) (a : PublicInfo) (p : List Bool) :
    sbChain (dropEmptyVals sb) a p = sbChain sb a p := by
  unfold sbChain
  cases hf : findA a sb with
  | none =>
    rw [findA_dropEmptyVals_none_of_none hf]
  | some m =>
    cases m with
    | nil =>
      rw [findA_dropEmptyVals_none hnd hf]
      rfl
    | cons x xs =>
      rw [findA_dropEmptyVals_cons hnd hf]

theorem sigChain_prune_eq {s : SectionListCache PublicInfo SectionList Signature}
    (hnd : nodupKeys s.signatures)
    (hin : ∀ e ∈ s.signatures, nodupKeys e.2)
    (p : List Bool) (l : SectionList) (a : PublicInfo) :
    sigChain (prune s).signatures p l a = sigChain s.signatures p l a := by
  have hsig : (prune s).signatures =
      dropEmptyVals (s.signatures.map (fun e => (e.1, dropEmptyVals e.2))) := rfl
  have hnd1 : nodupKeys (s.signatures.map (fun e => (e.1, dropEmptyVals e.2))) := by
    simpa only [nodupKeys, keys_map_snd] using hnd
  unfold sigChain
  rw [hsig]
  cases hm : findA p s.signatures with
  | none =>
    rw [findA_dropEmptyVals_none_of_none (by rw [findA_map_snd, hm]; rfl)]
  | some m =>
    have hmin : nodupKeys m := hin _ (findA_mem hm)
    have hmap : findA p (s.signatures.map (fun e => (e.1, dropEmptyVals e.2))) =
        some (dropEmptyVals m) := by
      rw [findA_map_snd, hm]
      rfl
    simp only [Option.some_bind]
    cases hdm : dropEmptyVals m with
    | nil =>
      rw [findA_dropEmptyVals_none hnd1 (by rw [hmap, hdm])]
      simp only [Option.none_bind]
      have hall := eq_nil_of_dropEmptyVals_eq_nil hdm
      cases hl : findA l m with
      | none => rfl
      | some sigs =>
        have hsnil : sigs = [] := hall _ (findA_mem hl)
        subst hsnil
        rfl
    | cons x xs =>
      rw [findA_dropEmptyVals_cons hnd1 (by rw [hmap, hdm]), ← hdm]
      simp only [Option.some_bind]
      cases hl : findA l m with
      | none =>
        rw [findA_dropEmptyVals_none_of_none hl]
      | some sigs =>
        cases sigs with
        | nil =>
          rw [findA_dropEmptyVals_none hmin hl]
          rfl
        | cons y ys =>
          rw [findA_dropEmptyVals_cons hmin hl]

theorem consistent_prune {s : SectionListCache PublicInfo SectionList Signature}
    (hwf : wfCache s) (h : consistent s) : consistent (prune s) := by
  intro a p l
  rw [show sbChain (prune s).signed_by a p = sbChain (dropEmptyVals s.signed_by) a p
    from rfl]
  rw [sbChain_dropEmptyVals_eq hwf.2.2.1, sigChain_prune_eq hwf.1 hwf.2.1]
  exact h a p l

theorem sbChain_modify_erase_self (a0 : PublicInfo) (p0 : List Bool)
    (sb : List (PublicInfo × List (List Bool × SectionList))) :
    sbChain (modifyA a0 (eraseA p0) sb) a0 p0 = none := by
  unfold sbChain
  rw [findA_modifyA_self]
  cases hf : findA a0 sb with
  | none => rfl
  | some m =>
    simp only [Option.map_some', Option.some_bind]
    exact findA_eraseA_self p0 m

theorem sbChain_modify_erase_none (a0 : PublicInfo) (p0 : List Bool)
    {sb : List (PublicInfo × List (List Bool × SectionList))}
    {a : PublicInfo} {p : List Bool}
    (h : sbChain sb a p = none) :
    sbChain (modifyA a0 (eraseA p0) sb) a p = none := by
  by_cases ha : a = a0
  · subst ha
    by_cases hp : p = p0
    · subst hp
      exact sbChain_modify_erase_self a p sb
    · unfold sbChain at h ⊢
      rw [findA_modifyA_self]
      cases hf : findA a sb with
      | none => rfl
      | some m =>
        rw [hf] at h
        simp only [Option.some_bind] at h
        simp only [Option.map_some', Option.some_bind]
        rw [findA_eraseA_ne (fun hh => hp hh) m]
        exact h
  · unfold sbChain at h ⊢
    rw [findA_modifyA_ne (fun hh => ha hh)]
    exact h

theorem sbChain_modify_erase_untouched (a0 : PublicInfo) (p0 : List Bool)
    (sb : List (PublicInfo × List (List Bool × SectionList)))
    (a : PublicInfo) (p : List Bool) (h : a ≠ a0 ∨ p ≠ p0) :
    sbChain (modifyA a0 (eraseA p0) sb) a p = sbChain sb a p := by
  unfold sbChain
  by_cases ha : a = a0
  · subst ha
    have hp : p ≠ p0 := by
      rcases h with h | h
      · exact absurd rfl h
      · exact h
    rw [findA_modifyA_self]
    cases hf : findA a sb with
    | none => rfl
    | some m =>
      simp only [Option.map_some', Option.some_bind]
      exact findA_eraseA_ne hp m
  · rw [findA_modifyA_ne (fun hh => ha hh)]

theorem sigChain_modify_untouched (a0 : PublicInfo) (p0 : List Bool)
    (l0 : SectionList)
    (sg : List (List Bool × List (SectionList × List (PublicInfo × Signature))))
    (p : List Bool) (l : SectionList) (a : PublicInfo)
    (h : a ≠ a0 ∨ p ≠ p0 ∨ l ≠ l0) :
    sigChain (modifyA p0 (modifyA l0 (eraseA a0)) sg) p l a =
      sigChain sg p l a := by
  unfold sigChain
  by_cases hp : p = p0
  · subst hp
    rw [findA_modifyA_self]
    cases hf : findA p sg with
    | none => rfl
    | some m =>
      simp only [Option.map_some', Option.some_bind]
      by_cases hl : l = l0
      · subst hl
        have ha : a ≠ a0 := by
          rcases h with h | h | h
          · exact h
          · exact absurd rfl h
          · exact absurd rfl h
        rw [findA_modifyA_self]
        cases hfl : findA l m with
        | none => rfl
        | some sigs =>
          simp only [Option.map_some', Option.some_bind]
          exact findA_eraseA_ne ha sigs
      · rw [findA_modifyA_ne (fun hh => hl hh)]
  · rw [findA_modifyA_ne (fun hh => hp hh)]

theorem removeFold_signed_by (a : PublicInfo) :
    ∀ (ts : List (List Bool × SectionList))
      (s : SectionListCache PublicInfo SectionList Signature),
    (ts.foldl (fun st pl =>
      { st with
          signatures := modifyA pl.1 (modifyA pl.2 (eraseA a)) st.signatures
          signed_by := modifyA a (eraseA pl.1) st.signed_by }) s).signed_by =
    ts.foldl (fun sb pl => modifyA a (eraseA pl.1) sb) s.signed_by := by
  intro ts
  induction ts with
  | nil =>
    intro s
    rfl
  | cons pl0 t ih =>
    intro s
    rw [List.foldl_cons, List.foldl_cons]
    exact ih _

theorem sigFold_signatures (a : PublicInfo) :
    ∀ (ts : List (List Bool × SectionList))
      (s : SectionListCache PublicInfo SectionList Signature),
    (ts.foldl (fun st pl =>
      { st with
          signatures := modifyA pl.1 (modifyA pl.2 (eraseA a)) st.signatures }) s).signatures =
    ts.foldl (fun sg pl => modifyA pl.1 (modifyA pl.2 (eraseA a)) sg) s.signatures := by
  intro ts
  induction ts with
  | nil =>
    intro s
    rfl
  | cons pl0 t ih =>
    intro s
    rw [List.foldl_cons, List.foldl_cons]
    exact ih _

theorem sigFold_signed_by (a : PublicInfo) :
    ∀ (ts : List (List Bool × SectionList))
      (s : SectionListCache PublicInfo SectionList Signature),
    (ts.foldl (fun st pl =>
      { st with
          signatures := modifyA pl.1 (modifyA pl.2 (eraseA a)) st.signatures }) s).signed_by =
    s.signed_by := by
  intro ts
  induction ts with
  | nil =>
    intro s
    rfl
  | cons pl0 t ih =>
    intro s
    rw [List.foldl_cons]
    exact ih _

theorem sbChain_fold_none (a0 : PublicInfo) (pTgt : List Bool) :
    ∀ (ts : List (List Bool × SectionList))
      (sb : List (PublicInfo × List (List Bool × SectionList))),
    ((∃ l', ((pTgt, l') : List Bool × SectionList) ∈ ts) ∨
      sbChain sb a0 pTgt = none) →
    sbChain (ts.foldl (fun sb2 pl => modifyA a0 (eraseA pl.1) sb2) sb) a0 pTgt = none := by
  intro ts
  induction ts with
  | nil =>
    intro sb h
    rcases h with ⟨l', h⟩ | h
    · simp at h
    · exact h
  | cons pl0 t ih =>
    intro sb h
    rw [List.foldl_cons]
    rcases h with ⟨l', h⟩ | h
    · rcases List.mem_cons.mp h with h | h
      · have h1 : pl0.1 = pTgt := by rw [← h]
        apply ih
        right
        rw [h1]
        exact sbChain_modify_erase_self a0 pTgt sb
      · exact ih _ (Or.inl ⟨l', h⟩)
    · exact ih _ (Or.inr (sbChain_modify_erase_none a0 pl0.1 h))

theorem sigChain_fold_other (a0 : PublicInfo) {a : PublicInfo} (hne : a ≠ a0) :
    ∀ (ts : List (List Bool × SectionList))
      (sg : List (List Bool × List (SectionList × List (PublicInfo × Signature))))
      (p : List Bool) (l : SectionList),
    sigChain (ts.foldl (fun sg2 pl => modifyA pl.1 (modifyA pl.2 (eraseA a0)) sg2) sg)
      p l a = sigChain sg p l a := by
  intro ts
  induction ts with
  | nil =>
    intro sg p l
    rfl
  | cons pl0 t ih =>
    intro sg p l
    rw [List.foldl_cons, ih _ p l]
    exact sigChain_modify_untouched a0 pl0.1 pl0.2 sg p l a (Or.inl hne)

theorem consistent_removeStep (a0 : PublicInfo) (p0 : List Bool) (l0 : SectionList)
    {s : SectionListCache PublicInfo SectionList Signature}
    (hcons : consistent s)
    (hsb : sbChain s.signed_by a0 p0 = some l0) :
    consistent
      { signatures := modifyA p0 (modifyA l0 (eraseA a0)) s.signatures
        signed_by := modifyA a0 (eraseA p0) s.signed_by
        lists_cache := s.lists_cache } := by
  intro a p l
  show sbChain (modifyA a0 (eraseA p0) s.signed_by) a p = some l ↔
    (sigChain (modifyA p0 (modifyA l0 (eraseA a0)) s.signatures) p l a).isSome
  by_cases ha : a = a0
  · subst ha
    by_cases hp : p = p0
    · subst hp
      rw [sbChain_modify_erase_self]
      by_cases hl : l = l0
      · subst hl
        rw [sigChain_modify_self]
        simp
      · rw [sigChain_modify_untouched a p l0 s.signatures p l a (Or.inr (Or.inr hl))]
        constructor
        · intro hfalse
          cases hfalse
        · intro hiss
          have h2 := (hcons a p l).mpr hiss
          rw [hsb] at h2
          exact absurd (Option.some.inj h2).symm hl
    · rw [sbChain_modify_erase_untouched a p0 s.signed_by a p (Or.inr hp),
        sigChain_modify_untouched a p0 l0 s.signatures p l a (Or.inr (Or.inl hp))]
      exact hcons a p l
  · rw [sbChain_modify_erase_untouched a0 p0 s.signed_by a p (Or.inl ha),
      sigChain_modify_untouched a0 p0 l0 s.signatures p l a (Or.inl ha)]
    exact hcons a p l

theorem consistent_removeFold (a0 : PublicInfo) :
    ∀ (ts : List (List Bool × SectionList))
      (s : SectionListCache PublicInfo SectionList Signature),
    consistent s →
    nodupKeys ts →
    (∀ pl ∈ ts, sbChain s.signed_by a0 pl.1 = some pl.2) →
    consistent (ts.foldl (fun st pl =>
      { st with
          signatures := modifyA pl.1 (modifyA pl.2 (eraseA a0)) st.signatures
          signed_by := modifyA a0 (eraseA pl.1) st.signed_by }) s) := by
  intro ts
  induction ts with
  | nil =>
    intro s h _ _
    exact h
  | cons pl0 t ih =>
    intro s h hnd hall
    rw [List.foldl_cons]
    have hnd2 := List.nodup_cons.mp (by
      simpa only [nodupKeys, List.map_cons] using hnd)
    have hstep : consistent
        { signatures := modifyA pl0.1 (modifyA pl0.2 (eraseA a0)) s.signatures
          signed_by := modifyA a0 (eraseA pl0.1) s.signed_by
          lists_cache := s.lists_cache } :=
      consistent_removeStep a0 pl0.1 pl0.2 h (hall pl0 (List.mem_cons_self _ _))
    apply ih _ hstep hnd2.2
    intro pl hpl
    have hne : pl.1 ≠ pl0.1 := by
      intro heq
      exact hnd2.1 (heq ▸ List.mem_map_of_mem Prod.fst hpl)
    show sbChain (modifyA a0 (eraseA pl0.1) s.signed_by) a0 pl.1 = some pl.2
    rw [sbChain_modify_erase_untouched a0 pl0.1 s.signed_by a0 pl.1 (Or.inr hne)]
    exact hall pl (List.mem_cons_of_mem _ hpl)

theorem sigChain_insertA_outer_ne (uP2 : List Bool)
    (W : List (SectionList × List (PublicInfo × Signature)))
    (sg : List (List Bool × List (SectionList × List (PublicInfo × Signature))))
    {p : List Bool} (hp : p ≠ uP2) (l : SectionList) (A : PublicInfo) :
    sigChain (insertA uP2 W sg) p l A = sigChain sg p l A := by
  unfold sigChain
  rw [findA_insertA_ne hp]

theorem sbChain_insertA_outer_ne (a : PublicInfo)
    (V : List (List Bool × SectionList))
    (sb : List (PublicInfo × List (List Bool × SectionList)))
    {A : PublicInfo} (hA : A ≠ a) (p : List Bool) :
    sbChain (insertA a V sb) A p = sbChain sb A p := by
  unfold sbChain
  rw [findA_insertA_ne hA]

theorem sigChain_inner_eq (uP2 : List Bool) (l2 : SectionList) (a : PublicInfo)
    (g : Signature)
    (sg : List (List Bool × List (SectionList × List (PublicInfo × Signature))))
    (l : SectionList) (A : PublicInfo) (h : A ≠ a ∨ l ≠ l2) :
    sigChain (insertA uP2
      (insertA l2 (insertA a g ((findA l2 ((findA uP2 sg).getD [])).getD []))
        ((findA uP2 sg).getD [])) sg) uP2 l A = sigChain sg uP2 l A := by
  unfold sigChain
  rw [findA_insertA_self]
  simp only [Option.some_bind]
  by_cases hl : l = l2
  · subst hl
    have hA : A ≠ a := by
      rcases h with h | h
      · exact h
      · exact absurd rfl h
    rw [findA_insertA_self]
    simp only [Option.some_bind]
    rw [findA_insertA_ne hA]
    cases hm : findA uP2 sg with
    | none => rfl
    | some m =>
      simp only [Option.getD_some, Option.some_bind]
      cases hlm : findA l m with
      | none => rfl
      | some sigs => rfl
  · rw [findA_insertA_ne (fun hh => hl hh)]
    cases hm : findA uP2 sg with
    | none => rfl
    | some m => rfl

theorem consistent_insertPhase (uP2 : List Bool) (l2 : SectionList)
    (a : PublicInfo) (g : Signature)
    {s2 : SectionListCache PublicInfo SectionList Signature}
    (hcons : consistent s2)
    (hnosig : ∀ l, sigChain s2.signatures uP2 l a = none) :
    consistent
      { signatures := insertA uP2
          (insertA l2 (insertA a g ((findA l2 ((findA uP2 s2.signatures).getD [])).getD []))
            ((findA uP2 s2.signatures).getD []))
          s2.signatures
        signed_by := insertA a
          (insertA uP2 l2 ((findA a s2.signed_by).getD []))
          s2.signed_by
        lists_cache := s2.lists_cache } := by
  intro A p l
  show sbChain (insertA a (insertA uP2 l2 ((findA a s2.signed_by).getD []))
      s2.signed_by) A p = some l ↔
    (sigChain (insertA uP2
      (insertA l2 (insertA a g ((findA l2 ((findA uP2 s2.signatures).getD [])).getD []))
        ((findA uP2 s2.signatures).getD [])) s2.signatures) p l A).isSome
  by_cases hA : A = a
  · subst hA
    by_cases hp : p = uP2
    · subst hp
      have hLHS : sbChain (insertA A (insertA p l2 ((findA A s2.signed_by).getD []))
          s2.signed_by) A p = some l2 := by
        unfold sbChain
        rw [findA_insertA_self]
        simp only [Option.some_bind]
        exact findA_insertA_self _ _ _
      rw [hLHS]
      by_cases hl : l = l2
      · subst hl
        have hRHS : sigChain (insertA p
            (insertA l (insertA A g ((findA l ((findA p s2.signatures).getD [])).getD []))
              ((findA p s2.signatures).getD [])) s2.signatures) p l A = some g := by
          unfold sigChain
          rw [findA_insertA_self]
          simp only [Option.some_bind]
          rw [findA_insertA_self]
          simp only [Option.some_bind]
          exact findA_insertA_self _ _ _
        rw [hRHS]
        simp
      · rw [sigChain_inner_eq p l2 A g s2.signatures l A (Or.inr hl), hnosig l]
        constructor
        · intro hsome
          exact absurd (Option.some.inj hsome).symm hl
        · intro hiss
          simp at hiss
    · have hsbeq : sbChain (insertA A (insertA uP2 l2 ((findA A s2.signed_by).getD []))
          s2.signed_by) A p = sbChain s2.signed_by A p := by
        unfold sbChain
        rw [findA_insertA_self]
        simp only [Option.some_bind]
        rw [findA_insertA_ne hp]
        cases hma : findA A s2.signed_by with
        | none => rfl
        | some mOld => rfl
      rw [hsbeq, sigChain_insertA_outer_ne uP2 _ s2.signatures hp l A]
      exact hcons A p l
  · rw [sbChain_insertA_outer_ne a _ s2.signed_by hA p]
    by_cases hp : p = uP2
    · subst hp
      rw [sigChain_inner_eq p l2 a g s2.signatures l A (Or.inl hA)]
      exact hcons A p l
    · rw [sigChain_insertA_outer_ne uP2 _ s2.signatures hp l A]
      exact hcons A p l

theorem consistent_add_signature (pfx : Pfx) (a : PublicInfo) (l : SectionList)
    (g : Signature) (n : Nat)
    {s : SectionListCache PublicInfo SectionList Signature}
    (hwf : wfCache s) (hcons : consistent s) :
    consistent (add_signature QN QD pfx a l g n s) := by
  set m1 := (findA a s.signed_by).getD [] with hm1
  set toR := m1.filter (fun e => compat e.1 pfx.unversioned) with htoR
  set sF := toR.foldl (fun st pl =>
    { st with
        signatures := modifyA pl.1 (modifyA pl.2 (eraseA a)) st.signatures
        signed_by := modifyA a (eraseA pl.1) st.signed_by }) s with hsF
  have hndm1 : nodupKeys m1 := by
    rw [hm1]
    cases hma : findA a s.signed_by with
    | none => simp [nodupKeys]
    | some mm =>
      simp only [Option.getD_some]
      exact hwf.2.2.2 _ (findA_mem hma)
  have hndtoR : nodupKeys toR := by
    rw [htoR]
    exact ((List.filter_sublist m1).map Prod.fst).nodup hndm1
  have hall : ∀ pl ∈ toR, sbChain s.signed_by a pl.1 = some pl.2 := by
    intro pl hpl
    rw [htoR] at hpl
    have hplm : pl ∈ m1 := List.mem_of_mem_filter hpl
    unfold sbChain
    cases hma : findA a s.signed_by with
    | none =>
      exfalso
      rw [hm1, hma] at hplm
      simp at hplm
    | some mm =>
      simp only [Option.some_bind]
      have hmm : m1 = mm := by
        rw [hm1, hma]
        rfl
      rw [← hmm]
      exact findA_eq_of_mem_nodup (by exact hplm) hndm1
  have hconsF : consistent sF := by
    rw [hsF]
    exact consistent_removeFold a toR s hcons hndtoR hall
  have hwfF : wfCache sF := by
    rw [hsF]
    exact wfCache_removeFold a toR s hwf
  have hsbF : sbChain sF.signed_by a pfx.unversioned = none := by
    rw [hsF, removeFold_signed_by]
    apply sbChain_fold_none
    cases hfu : findA pfx.unversioned m1 with
    | some l' =>
      left
      refine ⟨l', ?_⟩
      rw [htoR]
      exact List.mem_filter.mpr ⟨findA_mem hfu, compat_refl _⟩
    | none =>
      right
      unfold sbChain
      cases hma : findA a s.signed_by with
      | none => rfl
      | some mm =>
        simp only [Option.some_bind]
        have hmm : m1 = mm := by
          rw [hm1, hma]
          rfl
        rw [← hmm]
        exact hfu
  have hnosigF : ∀ l0, sigChain sF.signatures pfx.unversioned l0 a = none := by
    intro l0
    cases hv : sigChain sF.signatures pfx.unversioned l0 a with
    | none => rfl
    | some gg =>
      exfalso
      have hiss : (sigChain sF.signatures pfx.unversioned l0 a).isSome = true := by
        rw [hv]
        rfl
      have hsome := (hconsF a pfx.unversioned l0).mpr hiss
      rw [hsbF] at hsome
      cases hsome
  have hcons2 : consistent (prune sF) := consistent_prune hwfF hconsF
  have hnosig2 : ∀ l0, sigChain (prune sF).signatures pfx.unversioned l0 a = none := by
    intro l0
    rw [sigChain_prune_eq hwfF.1 hwfF.2.1]
    exact hnosigF l0
  exact consistent_insertPhase pfx.unversioned l a g hcons2 hnosig2

theorem consistent_remove_signatures (nameOf : PublicInfo → XorName)
    [DecidableEq XorName] (nm : XorName) (n : Nat)
    {s : SectionListCache PublicInfo SectionList Signature}
    (hwf : wfCache s) (hcons : consistent s) :
    consistent (remove_signatures QN QD nameOf nm n s) := by
  unfold remove_signatures
  split
  · exact hcons
  · rename_i al heq
    have hmem := List.mem_of_find?_eq_some heq
    have hfal : findA al.1 s.signed_by = some al.2 :=
      findA_eq_of_mem_nodup (by exact hmem) hwf.2.2.1
    have hwf1 : wfCache { s with signed_by := eraseA al.1 s.signed_by } := by
      obtain ⟨h1, h2, h3, h4⟩ := hwf
      exact ⟨h1, h2, nodupKeys_eraseA h3 _,
        fun e he => h4 _ ((eraseA_sublist _ _).subset he)⟩
    have hconsFold : consistent (al.2.foldl (fun st pl =>
        { st with signatures := modifyA pl.1 (modifyA pl.2 (eraseA al.1)) st.signatures })
        { s with signed_by := eraseA al.1 s.signed_by }) := by
      intro A p l
      rw [sigFold_signed_by, sigFold_signatures]
      by_cases hA : A = al.1
      · subst hA
        have hLHS : sbChain { s with signed_by := eraseA al.1 s.signed_by }.signed_by
            al.1 p = none := by
          unfold sbChain
          show (findA al.1 (eraseA al.1 s.signed_by)).bind _ = none
          rw [findA_eraseA_self]
          rfl
        rw [hLHS]
        have hRHS : sigChain (al.2.foldl
            (fun sg pl => modifyA pl.1 (modifyA pl.2 (eraseA al.1)) sg)
            ({ s with signed_by := eraseA al.1 s.signed_by }).signatures) p l al.1 = none := by
          show sigChain (al.2.foldl
            (fun sg pl => modifyA pl.1 (modifyA pl.2 (eraseA al.1)) sg) s.signatures)
            p l al.1 = none
          apply sigChain_fold_none
          cases hv : sigChain s.signatures p l al.1 with
          | none => exact Or.inr rfl
          | some gg =>
            left
            have hiss : (sigChain s.signatures p l al.1).isSome = true := by
              rw [hv]
              rfl
            have hsome := (hcons al.1 p l).mpr hiss
            unfold sbChain at hsome
            rw [hfal] at hsome
            simp only [Option.some_bind] at hsome
            exact findA_mem hsome
        rw [hRHS]
        constructor
        · intro hfalse
          cases hfalse
        · intro hfalse
          simp at hfalse
      · have hLHS : sbChain { s with signed_by := eraseA al.1 s.signed_by }.signed_by A p =
            sbChain s.signed_by A p := by
          unfold sbChain
          show (findA A (eraseA al.1 s.signed_by)).bind _ = _
          rw [findA_eraseA_ne hA]
        rw [hLHS]
        show _ ↔ (sigChain (al.2.foldl
          (fun sg pl => modifyA pl.1 (modifyA pl.2 (eraseA al.1)) sg) s.signatures) p l A).isSome
        rw [sigChain_fold_other al.1 hA al.2 s.signatures p l]
        exact hcons A p l
    have hwfFold : wfCache (al.2.foldl (fun st pl =>
        { st with signatures := modifyA pl.1 (modifyA pl.2 (eraseA al.1)) st.signatures })
        { s with signed_by := eraseA al.1 s.signed_by }) :=
      wfCache_sigFold al.1 al.2 _ hwf1
    exact consistent_prune hwfFold hconsFold

/-- C10: in every cache state reachable from the empty cache by the public
mutating calls `add_signature` and `remove_signatures`, an author maps an
unversioned prefix to a section list in the `signed_by` index exactly when
that author has a signature recorded in the signature set of
`signatures[prefix][list]` — the two indices stay mutually consistent. -/
theorem c10_cross_index_consistency (nameOf : PublicInfo → XorName)
    [DecidableEq XorName]
    (ops : List (CacheOp PublicInfo SectionList Signature XorName)) :
    consistent (applyOps QN QD nameOf ops new) := by
  have key : ∀ (ops2 : List (CacheOp PublicInfo SectionList Signature XorName))
      (s : SectionListCache PublicInfo SectionList Signature),
      wfCache s → consistent s →
      wfCache (applyOps QN QD nameOf ops2 s) ∧
        consistent (applyOps QN QD nameOf ops2 s) := by
    intro ops2
    induction ops2 with
    | nil =>
      intro s h1 h2
      exact ⟨h1, h2⟩
    | cons op t ih =>
      intro s h1 h2
      cases op with
      | addSig pfx a l g n =>
        exact ih _ (wfCache_add_signature QN QD pfx a l g n h1)
          (consistent_add_signature QN QD pfx a l g n h1 h2)
      | removeSigs nm n =>
        exact ih _ (wfCache_remove_signatures QN QD nameOf nm n h1)
          (consistent_remove_signatures QN QD nameOf nm n h1 h2)
  exact (key ops new wfCache_new consistent_new).2

end SectionListCache
